import Mathlib

/-!
# Verification of the expressive-code highlighter cache and remark rendering pipeline

This file gives a shallow embedding of two source files:

* `packages/@expressive-code/plugin-shiki/src/highlighter.ts` — a process-wide
  cache of shiki highlighter instances, a per-instance async task memoizer, and
  theme/language loaders built on it.
* the remark plugin (`remark-expressive-code`) — a document transformer that
  collects `code` nodes, renders them to HTML, deduplicates shared style/script
  assets per document, and splices the rendered HTML back into the tree.

Embedding conventions:

* JS `Map`/`WeakMap` objects become association lists; object identity becomes
  an explicit numeric id where the source relies on it (highlighter instances,
  theme objects).
* Async functions are modelled as atomic state transformers: the synchronous
  prefix of each function (which in JS runs up to the first `await`, and in
  particular installs cache entries before any constructed promise settles) is
  fused with the task body into one step.  A memoized promise is represented by
  the stored result of its task; joining an in-flight promise and reading a
  settled one are therefore the same lookup.  Settlement of the highlighter
  construction promise is kept as a separate explicit step because the cache's
  behaviour after a rejected construction is a property of interest.
* Calls to the external engine (`getHighlighter`, `loadTheme`, `loadLanguage`)
  are recorded in explicit call logs so that "the underlying work runs at most
  once" is a statement about the log.
-/

/-- Association list lookup; models `Map.get` / `WeakMap.get`. -/
def alookup {κ α : Type} [BEq κ] (l : List (κ × α)) (k : κ) : Option α :=
  (l.find? (fun p => p.1 == k)).map (·.2)

/-- Association list update; models `Map.set` / `WeakMap.set`.
Only lookup order matters to the embedding, so the new binding is consed on
and stale bindings for the same key are dropped. -/
def aset {κ α : Type} [BEq κ] (l : List (κ × α)) (k : κ) (v : α) : List (κ × α) :=
  (k, v) :: l.filter (fun p => !(p.1 == k))

/-- Models shiki's `LanguageRegistration`: a grammar with a name and the list
of languages it embeds lazily (`embeddedLangsLazy ?? []` collapsed into a plain
list). -/
structure LanguageRegistration where
  name : String
  embeddedLangsLazy : List String
deriving DecidableEq

/-- Models shiki's `LanguageInput` (`MaybeGetter<MaybeArray<LanguageRegistration>>`)
by the list of registrations it yields. -/
abbrev LanguageInput := List LanguageRegistration

/-- The configuration accepted by `getCachedHighlighter`:
`{ langs?: LanguageInput[] | undefined }`. -/
structure HighlighterConfig where
  langs : Option (List LanguageInput)
deriving DecidableEq

/-- The two value shapes hashed by the source file: the highlighter
configuration object, and a theme's `{ bg, fg, settings }` content. -/
inductive StableHashInput where
  | configInput (config : HighlighterConfig)
  | themeContent (bg : String) (fg : String) (settings : List String)
deriving DecidableEq

/-- Unary length tag used by the hash encoding below. -/
def lengthTag (n : Nat) : String :=
  String.mk (List.replicate n '1')

/-- Length-prefixed encoding of a string; the unary length tag followed by a
colon makes the encoding prefix-free, so concatenations of encoded fields are
injective. -/
def encStr (s : String) : String :=
  lengthTag s.length ++ ":" ++ s

/-- Modelled from the spec: `getStableObjectHash` from `@expressive-code/core`
is not part of the analyzed sources.  The spec requires a deterministic,
content-derived fingerprint for which value-equal inputs hash identically and
value-different inputs do not collide; it is modelled as a stable, injective
serialization of the hashed content. -/
def getStableObjectHash : StableHashInput → String
  | .configInput config =>
      match config.langs with
      | none => "\x7b\x7d"
      | some langs =>
          "\x7blangs:[" ++
            String.join (langs.map (fun li =>
              "[" ++ String.join (li.map (fun r =>
                encStr r.name ++ String.join (r.embeddedLangsLazy.map encStr))) ++ "]")) ++
          "]\x7d"
  | .themeContent bg fg settings =>
      "\x7b" ++ encStr bg ++ encStr fg ++ String.join (settings.map encStr) ++ "\x7d"

/-- Settlement state of the highlighter construction promise returned by
`getHighlighter`. -/
inductive PromiseState where
  | pending
  | resolved
  | rejected
deriving DecidableEq

/-- The value a memoized highlighter task settles with: theme load tasks
resolve with no value, language load tasks resolve with the resolved language
name (`none` models the exception thrown when the bundled registry lacks a
language that the composite branch tries to resolve). -/
inductive TaskResult where
  | unitResult
  | langResult (value : Option String)
deriving DecidableEq

/-- An entry of the `langs` array passed to `getHighlighter`: either one of the
caller's custom language inputs or the name of a bundled language. -/
inductive ShikiLang where
  | custom (input : LanguageInput)
  | bundledName (name : String)
deriving DecidableEq

/-- Models shiki's `isSpecialLang`: the fixed registry of special passthrough
languages that need no grammar. -/
def isSpecialLang (lang : String) : Bool :=
  ["ansi", "plaintext", "txt", "text", "plain", "none"].contains lang

/-- The mutable state of the highlighter module: the module-scoped caches
(`highlighterPromiseByConfig`, `promisesByHighlighter`, `themeCacheKeys`), the
per-instance engine state (loaded themes/languages), and the call logs for the
external engine operations. -/
structure ShikiCacheState where
  highlighterPromiseByConfig : List (String × Nat) := []
  promisesByHighlighter : List (Nat × List (String × TaskResult)) := []
  themeCacheKeys : List (Nat × String) := []
  nextHighlighterId : Nat := 0
  getHighlighterCalls : List (Nat × List ShikiLang) := []
  highlighterPromiseState : List (Nat × PromiseState) := []
  loadedThemes : List (Nat × List String) := []
  loadedLanguages : List (Nat × List String) := []
  loadThemeCalls : List (Nat × String) := []
  loadLanguageCalls : List (Nat × List String) := []
deriving DecidableEq

/-- The empty initial state of the module-scoped caches. -/
def initialShikiState : ShikiCacheState := {}

/-- The `langs` array computed for `getHighlighter`: the caller's custom
languages when any are given, in which case all bundled languages are added
right away, otherwise empty.  `config.langs?.length` is truthy exactly when
the list is present and non-empty. -/
def highlighterLangsFor (bundledLanguages : List (String × List LanguageRegistration))
    (config : HighlighterConfig) : List ShikiLang :=
  match config.langs with
  | some configLangs =>
      if configLangs.length ≠ 0 then
        configLangs.map ShikiLang.custom ++
          bundledLanguages.map (fun b => ShikiLang.bundledName b.1)
      else []
  | none => []

/-- The cache-miss branch of `getCachedHighlighter`: start one `getHighlighter`
construction (logging it), mark its promise pending, and store the promise in
the config cache immediately, before it settles. -/
def startHighlighterConstruction (bundledLanguages : List (String × List LanguageRegistration))
    (config : HighlighterConfig) (s : ShikiCacheState) : Nat × ShikiCacheState :=
  let configCacheKey := getStableObjectHash (.configInput config)
  let langs := highlighterLangsFor bundledLanguages config
  let highlighterPromise := s.nextHighlighterId
  (highlighterPromise,
    { s with
      nextHighlighterId := highlighterPromise + 1,
      getHighlighterCalls := s.getHighlighterCalls ++ [(highlighterPromise, langs)],
      highlighterPromiseState :=
        aset s.highlighterPromiseState highlighterPromise .pending,
      highlighterPromiseByConfig :=
        aset s.highlighterPromiseByConfig configCacheKey highlighterPromise })

/-- `getCachedHighlighter(config)`: compute the config fingerprint, return the
cached construction promise if present, otherwise start one construction and
cache its promise. -/
def getCachedHighlighter (bundledLanguages : List (String × List LanguageRegistration))
    (config : HighlighterConfig) (s : ShikiCacheState) : Nat × ShikiCacheState :=
  let configCacheKey := getStableObjectHash (.configInput config)
  match alookup s.highlighterPromiseByConfig configCacheKey with
  | some highlighterPromise => (highlighterPromise, s)
  | none => startHighlighterConstruction bundledLanguages config s

/-- External settlement step: the engine construction promise resolves. -/
def resolveHighlighterConstruction (p : Nat) (s : ShikiCacheState) : ShikiCacheState :=
  { s with highlighterPromiseState := aset s.highlighterPromiseState p .resolved }

/-- External settlement step: the engine construction promise rejects. -/
def rejectHighlighterConstruction (p : Nat) (s : ShikiCacheState) : ShikiCacheState :=
  { s with highlighterPromiseState := aset s.highlighterPromiseState p .rejected }

/-- The per-instance task map of a highlighter (empty when none was created
yet, as with a missed `WeakMap.get`). -/
def taskMapOf (s : ShikiCacheState) (highlighter : Nat) : List (String × TaskResult) :=
  (alookup s.promisesByHighlighter highlighter).getD []

/-- `promises.set(taskId, promise)` together with the surrounding
`promisesByHighlighter.set(highlighter, promises)`: records a task promise in
the instance's task map. -/
def storeTask (highlighter : Nat) (taskId : String) (r : TaskResult)
    (s : ShikiCacheState) : ShikiCacheState :=
  let promises := aset (taskMapOf s highlighter) taskId r
  { s with promisesByHighlighter := aset s.promisesByHighlighter highlighter promises }

/-- `memoizeHighlighterTask(highlighter, taskId, taskFn)`: return the recorded
promise for `taskId` if one exists; otherwise run `taskFn` and record its
promise in the instance's task map. -/
def memoizeHighlighterTask (highlighter : Nat) (taskId : String)
    (taskFn : ShikiCacheState → TaskResult × ShikiCacheState) (s : ShikiCacheState) :
    TaskResult × ShikiCacheState :=
  match alookup (taskMapOf s highlighter) taskId with
  | some promise => (promise, s)
  | none =>
      let res := taskFn s
      (res.1, storeTask highlighter taskId res.1 res.2)

/-- A theme object: an explicit object id models JS object identity (the key
of the `themeCacheKeys` WeakMap), the remaining fields are the content hashed
into the cache key. -/
structure ExpressiveCodeTheme where
  objId : Nat
  name : String
  bg : String
  fg : String
  settings : List String
deriving DecidableEq

/-- `highlighter.getLoadedThemes()`. -/
def getLoadedThemes (s : ShikiCacheState) (highlighter : Nat) : List String :=
  (alookup s.loadedThemes highlighter).getD []

/-- `highlighter.getLoadedLanguages()`. -/
def getLoadedLanguages (s : ShikiCacheState) (highlighter : Nat) : List String :=
  (alookup s.loadedLanguages highlighter).getD []

/-- The task body passed to `memoizeHighlighterTask` by `ensureThemeIsLoaded`:
calls `highlighter.loadTheme` with the theme renamed to its cache key.  The
call is logged and the engine's loaded theme list gains the cache key. -/
def loadThemeTask (highlighter : Nat) (cacheKey : String)
    (s : ShikiCacheState) : TaskResult × ShikiCacheState :=
  (.unitResult,
    { s with
      loadThemeCalls := s.loadThemeCalls ++ [(highlighter, cacheKey)],
      loadedThemes :=
        aset s.loadedThemes highlighter (getLoadedThemes s highlighter ++ [cacheKey]) })

/-- The cache key resolved by `ensureThemeIsLoaded`: the key remembered for
this theme object if any, otherwise the display name joined with the content
hash of `{ bg, fg, settings }`. -/
def themeCacheKeyOf (theme : ExpressiveCodeTheme) (s : ShikiCacheState) : String :=
  (alookup s.themeCacheKeys theme.objId).getD
    (theme.name ++ "-" ++ getStableObjectHash (.themeContent theme.bg theme.fg theme.settings))

/-- `if (!existingCacheKey) themeCacheKeys.set(theme, cacheKey)`: remember the
resolved cache key for this theme object when it had none. -/
def rememberThemeCacheKey (theme : ExpressiveCodeTheme) (s : ShikiCacheState) : ShikiCacheState :=
  if (alookup s.themeCacheKeys theme.objId).isNone then
    { s with themeCacheKeys := aset s.themeCacheKeys theme.objId (themeCacheKeyOf theme s) }
  else s

/-- `ensureThemeIsLoaded(highlighter, theme)`: resolve (and remember) the
content-derived cache key; then load the theme through the task memoizer
unless the engine already reports the key as loaded. -/
def ensureThemeIsLoaded (highlighter : Nat) (theme : ExpressiveCodeTheme)
    (s : ShikiCacheState) : String × ShikiCacheState :=
  let cacheKey := themeCacheKeyOf theme s
  let s1 := rememberThemeCacheKey theme s
  if (getLoadedThemes s1 highlighter).contains cacheKey then (cacheKey, s1)
  else
    let res := memoizeHighlighterTask highlighter ("loadTheme:" ++ cacheKey)
      (loadThemeTask highlighter cacheKey) s1
    (cacheKey, res.2)

/-- `[...new Set(l)]`: deduplication keeping first occurrences, in order. -/
def dedupFirst (seen : List String) : List String → List String
  | [] => []
  | x :: xs =>
      if seen.contains x then dedupFirst seen xs
      else x :: dedupFirst (seen ++ [x]) xs

/-- The set of lazily embedded languages of a resolved bundled definition
that are missing from a loaded-language snapshot:
`[...new Set(bundledLang.flatMap(lang => lang.embeddedLangsLazy ?? []))]`
filtered to the not-yet-loaded ones. -/
def missingEmbeddedLangsOf (bundledLang : List LanguageRegistration)
    (loadedLanguages : List String) : List String :=
  (dedupFirst [] (bundledLang.flatMap (fun lang => lang.embeddedLangsLazy))).filter
    (fun lang => !loadedLanguages.contains lang)

/-- The full `langsToLoad` list of the composite branch: the missing embedded
languages followed by the composite language itself when not yet loaded (and
not special). -/
def compositeLangsToLoad (bundledLang : List LanguageRegistration) (language : String)
    (loadedLanguages : List String) : List String :=
  missingEmbeddedLangsOf bundledLang loadedLanguages ++
    (if !loadedLanguages.contains language && !isSpecialLang language then [language] else [])

/-- `await highlighter.loadLanguage(...langsToLoad)`: the batched engine call,
logged, with the engine's loaded-language list extended accordingly. -/
def recordLoadLanguage (highlighter : Nat) (langsToLoad : List String)
    (s : ShikiCacheState) : ShikiCacheState :=
  { s with
    loadLanguageCalls := s.loadLanguageCalls ++ [(highlighter, langsToLoad)],
    loadedLanguages :=
      aset s.loadedLanguages highlighter (getLoadedLanguages s highlighter ++ langsToLoad) }

/-- The task body passed to `memoizeHighlighterTask` by
`ensureLanguageIsLoaded`: snapshot the loaded languages, classify the language
(loaded / special / bundled), fall back to `"txt"` when unavailable, expand
lazily embedded languages for the composite languages `md`/`markdown`/`mdx`,
and issue one batched `loadLanguage` call for everything that needs loading. -/
def loadLanguageTask (bundledLanguages : List (String × List LanguageRegistration))
    (highlighter : Nat) (language : String)
    (s : ShikiCacheState) : TaskResult × ShikiCacheState :=
  let loadedLanguages := getLoadedLanguages s highlighter
  let isLoaded := loadedLanguages.contains language
  let isSpecial := isSpecialLang language
  let isBundled := (bundledLanguages.map (·.1)).contains language
  let isAvailable := isLoaded || isSpecial || isBundled
  if !isAvailable then (.langResult (some "txt"), s)
  else
    let embeddedPart : Option (List String) :=
      if ["md", "markdown", "mdx"].contains language then
        match alookup bundledLanguages language with
        | some bundledLang => some (missingEmbeddedLangsOf bundledLang loadedLanguages)
        | none => none
      else some []
    match embeddedPart with
    | none => (.langResult none, s)
    | some missingEmbeddedLangs =>
        let langsToLoad :=
          missingEmbeddedLangs ++ (if !isLoaded && !isSpecial then [language] else [])
        if langsToLoad.length ≠ 0 then
          (.langResult (some language), recordLoadLanguage highlighter langsToLoad s)
        else (.langResult (some language), s)

/-- `ensureLanguageIsLoaded(highlighter, language)`: run the language load task
through the per-instance memoizer under the task id `loadLanguage:<language>`. -/
def ensureLanguageIsLoaded (bundledLanguages : List (String × List LanguageRegistration))
    (highlighter : Nat) (language : String) (s : ShikiCacheState) :
    TaskResult × ShikiCacheState :=
  memoizeHighlighterTask highlighter ("loadLanguage:" ++ language)
    (loadLanguageTask bundledLanguages highlighter language) s

/-- The fields of an mdast `Code` node: language tag, meta string (both
possibly absent) and the source text. -/
structure Code where
  lang : Option String
  meta : Option String
  value : String
deriving DecidableEq

/-- A node of the mdast document tree.  `code` nodes are the rendering
targets, `html` nodes are what they get replaced with, `parentNode` covers
every parent kind (root, blockquote, list, ...), `leaf` covers the remaining
non-parent kinds (text, thematicBreak, ...). -/
inductive MdNode where
  | code (c : Code)
  | html (value : String)
  | parentNode (kind : String) (children : List MdNode)
  | leaf (kind : String) (value : String)

mutual

/-- Structural equality test for tree nodes (the notion of equality used by
`indexOf`; see the note on `jsIndexOf`). -/
def mdNodeBEq : MdNode → MdNode → Bool
  | .code a, .code b => a == b
  | .html a, .html b => a == b
  | .parentNode k1 cs1, .parentNode k2 cs2 => k1 == k2 && mdNodeListBEq cs1 cs2
  | .leaf k1 v1, .leaf k2 v2 => k1 == k2 && v1 == v2
  | _, _ => false

/-- Pointwise equality test for node lists. -/
def mdNodeListBEq : List MdNode → List MdNode → Bool
  | [], [] => true
  | a :: as, b :: bs => mdNodeBEq a b && mdNodeListBEq as bs
  | _, _ => false

end

instance : BEq MdNode := ⟨mdNodeBEq⟩

/-- A hast node, as produced by the rendering engine and serialized with
`toHtml`. -/
inductive Hast where
  | element (tagName : String) (properties : List (String × String)) (children : List Hast)
  | text (value : String)

/-- The `renderedGroupAst` wrapper element returned by `ec.render`. -/
structure HastElement where
  tagName : String
  properties : List (String × String)
  children : List Hast

mutual

/-- Models the external hast serializer `toHtml`. -/
def toHtml : Hast → String
  | .element tagName properties children =>
      "<" ++ tagName ++
        String.join (properties.map (fun p => " " ++ p.1 ++ "=\x22" ++ p.2 ++ "\x22")) ++
        ">" ++ toHtmlList children ++ "</" ++ tagName ++ ">"
  | .text value => value

/-- Serializes adjacent hast nodes. -/
def toHtmlList : List Hast → String
  | [] => ""
  | h :: rest => toHtml h ++ toHtmlList rest

end

/-- Serializes a `HastElement` wrapper. -/
def toHtmlElement (e : HastElement) : String :=
  toHtml (.element e.tagName e.properties e.children)

/-- The `positionInDocument` record of a block's `parentDocument`. -/
structure PositionInDocument where
  groupIndex : Nat
  totalGroups : Nat
deriving DecidableEq

/-- The `parentDocument` record passed in the block input.  `documentRoot`
holds the document tree value at block construction time (a live reference in
JS). -/
structure ParentDocument where
  sourceFilePath : Option String
  documentRoot : MdNode
  positionInDocument : PositionInDocument

/-- `ExpressiveCodeBlockOptions`: the render-input record built per code
node. -/
structure ExpressiveCodeBlockOptions where
  code : String
  language : String
  meta : String
  locale : Option String := none
  parentDocument : ParentDocument

/-- An `ExpressiveCodeBlock` instance, modelled by the options it was
constructed from. -/
structure ExpressiveCodeBlock where
  options : ExpressiveCodeBlockOptions

/-- The result of the external rendering capability `ec.render`: the wrapper
element plus block/group-scoped style payloads. -/
structure RenderOutput where
  renderedGroupAst : HastElement
  styles : List String

/-- The renderer record produced by `createRenderer`: the engine (modelled by
its render capability) together with the precomputed shared assets. -/
structure RemarkExpressiveCodeRenderer where
  ec : ExpressiveCodeBlock → RenderOutput
  baseStyles : String
  themeStyles : String
  jsModules : List String

/-- The external expressive-code engine capabilities consumed by
`createRenderer` (`new ExpressiveCode(...)` plus its style/module queries,
theme loading included); treated as a single external collaborator. -/
structure ExpressiveCodeEngine where
  render : ExpressiveCodeBlock → RenderOutput
  getBaseStyles : String
  getThemeStyles : String
  getJsModules : List String

/-- `createRenderer(options)`: builds the engine from the options (theme
resolution and loading happen inside the external engine constructor, which
the `engine` argument models) and packages it with its base styles, theme
styles and JS modules. -/
def createRenderer (engine : ExpressiveCodeEngine) : RemarkExpressiveCodeRenderer :=
  { ec := engine.render,
    baseStyles := engine.getBaseStyles,
    themeStyles := engine.getThemeStyles,
    jsModules := engine.getJsModules }

/-- The recognized plugin options.  `customCreateRenderer` receives the full
options object in the source; since it only ever closes over them, it is
modelled as a thunk (a structure field cannot mention the structure itself). -/
structure RemarkExpressiveCodeOptions where
  tabWidth : Nat := 2
  getBlockLocale : Option (ExpressiveCodeBlockOptions → Option String) := none
  customCreateBlock : Option (ExpressiveCodeBlockOptions → ExpressiveCodeBlock) := none
  customCreateRenderer : Option (Unit → RemarkExpressiveCodeRenderer) := none

/-- `value.replace(/\t/g, ' '.repeat(tabWidth))`. -/
def expandTabs (value : String) (tabWidth : Nat) : String :=
  String.join (value.data.map (fun ch =>
    if ch = '\t' then String.mk (List.replicate tabWidth ' ') else String.mk [ch]))

mutual

/-- `visit(tree, 'code', ...)`: collect every `code` descendant in document
(preorder) order, together with the path of child indices leading from the
root to its parent node.  A `code` root itself is skipped, as in the source
(`if (index === null || !parent) return`). -/
def collectCode : MdNode → List Nat → List (List Nat × Code)
  | .parentNode _ children, path => collectCodeChildren children path 0
  | _, _ => []

/-- Visits the children of the node at `path`, the first listed child sitting
at child index `i`. -/
def collectCodeChildren : List MdNode → List Nat → Nat → List (List Nat × Code)
  | [], _, _ => []
  | c :: rest, path, i =>
      (match c with
       | .code cd => [(path, cd)]
       | other => collectCode other (path ++ [i]))
      ++ collectCodeChildren rest path (i + 1)

end

mutual

/-- Proof-side variant of `collectCode` that additionally records each code
node's child index within its parent. -/
def collectCodeIdx : MdNode → List Nat → List (List Nat × Nat × Code)
  | .parentNode _ children, path => collectCodeIdxChildren children path 0
  | _, _ => []

/-- Indexed variant of `collectCodeChildren`. -/
def collectCodeIdxChildren : List MdNode → List Nat → Nat → List (List Nat × Nat × Code)
  | [], _, _ => []
  | c :: rest, path, i =>
      (match c with
       | .code cd => [(path, i, cd)]
       | other => collectCodeIdx other (path ++ [i]))
      ++ collectCodeIdxChildren rest path (i + 1)

end

/-- The children list of the node reached by following the given child
indices from `t`; `none` when the path leads through a non-parent node or out
of range. -/
def childrenAt : MdNode → List Nat → Option (List MdNode)
  | n, [] =>
      match n with
      | .parentNode _ cs => some cs
      | _ => none
  | n, i :: rest =>
      match n with
      | .parentNode _ cs =>
          match cs[i]? with
          | some c => childrenAt c rest
          | none => none
      | _ => none

/-- Rebuilds the tree with `f` applied to the children list of the node at
`path` (identity when the path is invalid); models an in-place mutation of
`parent.children` through the live reference held by the collector. -/
def updateChildrenAt : MdNode → List Nat → (List MdNode → List MdNode) → MdNode
  | n, [], f =>
      match n with
      | .parentNode k cs => .parentNode k (f cs)
      | other => other
  | n, i :: rest, f =>
      match n with
      | .parentNode k cs =>
          match cs[i]? with
          | some c => .parentNode k (cs.set i (updateChildrenAt c rest f))
          | none => .parentNode k cs
      | other => other

/-- Replaces the `i`-th child of the node at `path` by `v`. -/
def setChildAt (t : MdNode) (path : List Nat) (i : Nat) (v : MdNode) : MdNode :=
  updateChildrenAt t path (fun cs => cs.set i v)

/-- The node reached by following the given child indices from `t`. -/
def nodeAt : MdNode → List Nat → Option MdNode
  | t, [] => some t
  | t, i :: rest =>
      match t with
      | .parentNode _ cs =>
          match cs[i]? with
          | some c => nodeAt c rest
          | none => none
      | _ => none

/-- The node `x` sits at child index `j` of the node at path `q`. -/
def entryAt (t : MdNode) (q : List Nat) (j : Nat) (x : MdNode) : Prop :=
  ∃ csq, childrenAt t q = some csq ∧ csq[j]? = some x

/-- JS `Array.prototype.indexOf`: index of the first occurrence, `-1` when
absent. -/
def jsIndexOf (cs : List MdNode) (x : MdNode) : Int :=
  match cs.findIdx? (fun c => c == x) with
  | some i => (i : Int)
  | none => -1

/-- JS `Array.prototype.splice(start, deleteCount, ...items)` (result array);
a negative `start` counts from the end. -/
def jsSplice (cs : List MdNode) (start : Int) (deleteCount : Nat) (items : List MdNode) :
    List MdNode :=
  let len : Int := cs.length
  let actualStart := (if start < 0 then max (len + start) 0 else min start len).toNat
  cs.take actualStart ++ items ++ cs.drop (actualStart + deleteCount)

/-- `parent.children.splice(parent.children.indexOf(code), 1, html)`: the
single replacement step performed for one processed code node. -/
def spliceHtmlAt (tree : MdNode) (parentPath : List Nat) (code : Code) (blockHtml : String) :
    MdNode :=
  updateChildrenAt tree parentPath
    (fun cs => jsSplice cs (jsIndexOf cs (.code code)) 1 [.html blockHtml])

/-- The group-level style loop of `renderBlockToHtml`: each style not yet in
the added set is appended to both the prepend list and the added set. -/
def addGroupStyles : List String → List String × List String → List String × List String
  | [], acc => acc
  | style :: rest, acc =>
      if style ∈ acc.2 then addGroupStyles rest acc
      else addGroupStyles rest (acc.1 ++ [style], acc.2 ++ [style])

/-- One `if (style && !addedStyles.has(style)) { add; push }` block of
`renderBlockToHtml`, threading the `(stylesToPrepend, addedStyles)` pair. -/
def addStyleIfNew (style : String) (acc : List String × List String) :
    List String × List String :=
  if style ≠ "" ∧ style ∉ acc.2 then (acc.1 ++ [style], acc.2 ++ [style]) else acc

/-- The style-collection section of `renderBlockToHtml`: base styles, theme
styles (each when non-empty and not yet added), then the group-level styles.
Returns the `stylesToPrepend` list and the updated `addedStyles` set. -/
def collectStylesToPrepend (baseStyles themeStyles : String) (styles : List String)
    (addedStyles : List String) : List String × List String :=
  addGroupStyles styles (addStyleIfNew themeStyles (addStyleIfNew baseStyles ([], addedStyles)))

/-- The `jsModules.forEach` section of `renderBlockToHtml`: one script element
per module not yet added.  Returns the script elements and the updated
`addedJsModules` set. -/
def collectScriptElements : List String → List String → List Hast × List String
  | [], addedJsModules => ([], addedJsModules)
  | moduleCode :: rest, addedJsModules =>
      if moduleCode ∈ addedJsModules then collectScriptElements rest addedJsModules
      else
        let res := collectScriptElements rest (addedJsModules ++ [moduleCode])
        (Hast.element "script" [("type", "module")] [Hast.text moduleCode] :: res.1, res.2)

/-- The module payloads the `jsModules.forEach` section emits (the script
elements' text contents, in order), used to state the once-per-document
property of script modules. -/
def collectScriptModules : List String → List String → List String × List String
  | [], addedJsModules => ([], addedJsModules)
  | moduleCode :: rest, addedJsModules =>
      if moduleCode ∈ addedJsModules then collectScriptModules rest addedJsModules
      else
        let res := collectScriptModules rest (addedJsModules ++ [moduleCode])
        (moduleCode :: res.1, res.2)

/-- The extra elements prepended to a block's rendered markup: a single style
element combining all newly collected styles (when any), followed by the new
script elements. -/
def extraElementsOf (stylesToPrepend : List String) (scriptElements : List Hast) : List Hast :=
  (if stylesToPrepend.length ≠ 0 then
    [Hast.element "style" [] [Hast.text (String.join stylesToPrepend)]]
  else []) ++ scriptElements

/-- `renderedGroupAst.children.unshift(...extraElements)`: prepends the extra
elements to the root-level children of the rendered wrapper element. -/
def prependChildren (e : HastElement) (extra : List Hast) : HastElement :=
  { e with children := extra ++ e.children }

/-- `renderBlockToHtml({ codeBlock, renderer, addedStyles, addedJsModules })`:
render the block, collect the not-yet-added style/script assets, prepend them
to the children of the rendered wrapper element, and serialize.  Returns the
HTML string and the updated per-document added sets. -/
def renderBlockToHtml (renderer : RemarkExpressiveCodeRenderer)
    (codeBlock : ExpressiveCodeBlock) (addedStyles addedJsModules : List String) :
    String × List String × List String :=
  let out := renderer.ec codeBlock
  let sp := collectStylesToPrepend renderer.baseStyles renderer.themeStyles out.styles addedStyles
  let se := collectScriptElements renderer.jsModules addedJsModules
  let extraElements := extraElementsOf sp.1 se.1
  let htmlContent := toHtmlElement (prependChildren out.renderedGroupAst extraElements)
  (htmlContent, sp.2, se.2)

/-- Per-block record of what one `renderBlockToHtml` call emitted, used to
state the per-document asset-deduplication property. -/
structure BlockEmission where
  stylesToPrepend : List String
  scriptElements : List Hast
  html : String

/-- Observer fold over a document's blocks: runs the same computation as the
per-document rendering loop and records each block's emissions. -/
def renderDocBlocks (renderer : RemarkExpressiveCodeRenderer) :
    List ExpressiveCodeBlock → List String → List String → List BlockEmission
  | [], _, _ => []
  | codeBlock :: rest, addedStyles, addedJsModules =>
      let out := renderer.ec codeBlock
      let sp := collectStylesToPrepend renderer.baseStyles renderer.themeStyles out.styles addedStyles
      let se := collectScriptElements renderer.jsModules addedJsModules
      let htmlContent := toHtmlElement
        (prependChildren out.renderedGroupAst (extraElementsOf sp.1 se.1))
      { stylesToPrepend := sp.1, scriptElements := se.1, html := htmlContent } ::
        renderDocBlocks renderer rest sp.2 se.2

/-- The plain per-document rendering fold (HTML strings only), as iterated by
the transformer's loop. -/
def renderAllBlocks (renderer : RemarkExpressiveCodeRenderer) :
    List ExpressiveCodeBlock → List String → List String → List String
  | [], _, _ => []
  | codeBlock :: rest, addedStyles, addedJsModules =>
      let res := renderBlockToHtml renderer codeBlock addedStyles addedJsModules
      res.1 :: renderAllBlocks renderer rest res.2.1 res.2.2

/-- The body of the transformer's `for` loop, iterated over the collected
`(parent, code)` pairs in document order: build the block input (normalized
code, language/meta defaults, positional metadata), run the locale and block
construction hooks, render the block, and splice the resulting HTML node into
the parent's children at the code node's current index. -/
def runBlocks (opts : RemarkExpressiveCodeOptions) (renderer : RemarkExpressiveCodeRenderer)
    (filePath : Option String) (totalGroups : Nat) :
    List (List Nat × Code) → Nat → MdNode → List String → List String → MdNode
  | [], _, tree, _, _ => tree
  | (parentPath, code) :: rest, groupIndex, tree, addedStyles, addedJsModules =>
      let normalizedCode :=
        if opts.tabWidth > 0 then expandTabs code.value opts.tabWidth else code.value
      let input0 : ExpressiveCodeBlockOptions :=
        { code := normalizedCode,
          language := code.lang.getD "",
          meta := code.meta.getD "",
          locale := none,
          parentDocument :=
            { sourceFilePath := filePath,
              documentRoot := tree,
              positionInDocument := { groupIndex := groupIndex, totalGroups := totalGroups } } }
      let input :=
        match opts.getBlockLocale with
        | some getLocale => { input0 with locale := getLocale input0 }
        | none => input0
      let codeBlock :=
        match opts.customCreateBlock with
        | some create => create input
        | none => ExpressiveCodeBlock.mk input
      let res := renderBlockToHtml renderer codeBlock addedStyles addedJsModules
      let tree1 := spliceHtmlAt tree parentPath code res.1
      runBlocks opts renderer filePath totalGroups rest (groupIndex + 1) tree1 res.2.1 res.2.2

/-- The result of one transformer run: the (possibly mutated) tree, the
closure-cached renderer, and the running count of renderer constructions
(invocations of `customCreateRenderer ?? createRenderer`). -/
structure TransformerResult where
  tree : MdNode
  asyncRenderer : Option RemarkExpressiveCodeRenderer
  rendererConstructions : Nat

/-- The transformer returned by `remarkExpressiveCode(options)` applied to one
document: collect the code nodes; if none, return with no mutation; otherwise
obtain the cached renderer (constructing it on first need), then render and
splice every collected node with fresh per-document added-asset sets. -/
def transformer (opts : RemarkExpressiveCodeOptions) (engine : ExpressiveCodeEngine)
    (tree : MdNode) (filePath : Option String)
    (asyncRenderer : Option RemarkExpressiveCodeRenderer) (rendererConstructions : Nat) :
    TransformerResult :=
  let nodesToProcess := collectCode tree []
  if nodesToProcess.length = 0 then
    { tree := tree, asyncRenderer := asyncRenderer,
      rendererConstructions := rendererConstructions }
  else
    let obtained : RemarkExpressiveCodeRenderer × Nat :=
      match asyncRenderer with
      | some r => (r, rendererConstructions)
      | none =>
          let r :=
            match opts.customCreateRenderer with
            | some custom => custom ()
            | none => createRenderer engine
          (r, rendererConstructions + 1)
    let renderer := obtained.1
    let tree1 := runBlocks opts renderer filePath nodesToProcess.length nodesToProcess 0 tree [] []
    { tree := tree1, asyncRenderer := some renderer, rendererConstructions := obtained.2 }

/-- Position-addressed replacement list: each collected code node paired with
the HTML that replaced it. -/
def applyReplacements : MdNode → List ((List Nat × Nat × Code) × String) → MdNode
  | t, [] => t
  | t, (entry, h) :: rest => applyReplacements (setChildAt t entry.1 entry.2.1 (.html h)) rest

/-- The tree-mutation part of the rendering loop in isolation: the `indexOf`
based splice steps, folded over the collected nodes with their HTML. -/
def spliceFold : MdNode → List ((List Nat × Code) × String) → MdNode
  | t, [] => t
  | t, (pc, h) :: rest => spliceFold (spliceHtmlAt t pc.1 pc.2 h) rest

/-- A concrete rendering engine used to exercise the pipeline on closed
inputs: it echoes the block's code into a `div` wrapper and reports fixed
base/theme styles, one group style, and two script modules. -/
def sampleEngine : ExpressiveCodeEngine :=
  { render := fun b =>
      { renderedGroupAst := ⟨"div", [], [Hast.text b.options.code]⟩, styles := ["G"] },
    getBaseStyles := "B",
    getThemeStyles := "T",
    getJsModules := ["M1", "M2"] }

/-- The renderer built from `sampleEngine`. -/
def sampleRenderer : RemarkExpressiveCodeRenderer := createRenderer sampleEngine

mutual

/-- `true` when the subtree contains no code node. -/
def codeFree : MdNode → Bool
  | .code _ => false
  | .html _ => true
  | .leaf _ _ => true
  | .parentNode _ cs => codeFreeList cs

/-- `codeFree` over a list of subtrees. -/
def codeFreeList : List MdNode → Bool
  | [] => true
  | c :: rest => codeFree c && codeFreeList rest

end

theorem alookup_cons {κ α : Type} [BEq κ] (p : κ × α) (l : List (κ × α)) (k : κ) :
    alookup (p :: l) k = if p.1 == k then some p.2 else alookup l k := by
  by_cases h : p.1 == k <;> simp [alookup, List.find?_cons, h]

theorem alookup_nil {κ α : Type} [BEq κ] (k : κ) : alookup ([] : List (κ × α)) k = none := rfl

theorem alookup_aset_self {κ α : Type} [BEq κ] [LawfulBEq κ] (l : List (κ × α)) (k : κ) (v : α) :
    alookup (aset l k v) k = some v := by
  simp [aset, alookup_cons]

theorem alookup_filter_ne {κ α : Type} [BEq κ] [LawfulBEq κ] (l : List (κ × α)) (k k' : κ)
    (h : k' ≠ k) : alookup (l.filter (fun p => !(p.1 == k))) k' = alookup l k' := by
  induction l with
  | nil => rfl
  | cons p rest ih =>
      rw [List.filter_cons]
      by_cases hp : p.1 = k
      · have hpk' : (p.1 == k') = false := beq_eq_false_iff_ne.mpr (by rw [hp]; exact Ne.symm h)
        simp only [hp, beq_self_eq_true, Bool.not_true, Bool.false_eq_true, if_false]
        rw [ih, alookup_cons, hpk', if_neg (by simp)]
      · have hpk : (!(p.1 == k)) = true := by simp [hp]
        rw [if_pos hpk, alookup_cons, alookup_cons, ih]

theorem alookup_aset_ne {κ α : Type} [BEq κ] [LawfulBEq κ] (l : List (κ × α)) (k k' : κ) (v : α)
    (h : k' ≠ k) : alookup (aset l k v) k' = alookup l k' := by
  rw [aset, alookup_cons]
  have hkk' : (k == k') = false := beq_eq_false_iff_ne.mpr (Ne.symm h)
  rw [hkk', if_neg (by simp)]
  exact alookup_filter_ne l k k' h
/-- C1: two calls to `getCachedHighlighter` whose configurations produce the
same fingerprint return the same promise; the second call changes nothing (in
particular it starts no second construction, even while the first construction
is still pending), the promise is stored in the cache already when the first
call returns (so concurrent callers join it), and the two calls start at most
one construction in total. -/
theorem getCachedHighlighter_constructs_once
    (bl : List (String × List LanguageRegistration)) (c1 c2 : HighlighterConfig)
    (s : ShikiCacheState)
    (hfp : getStableObjectHash (.configInput c1) = getStableObjectHash (.configInput c2)) :
    (getCachedHighlighter bl c2 ((getCachedHighlighter bl c1 s).2)).1
      = (getCachedHighlighter bl c1 s).1 ∧
    (getCachedHighlighter bl c2 ((getCachedHighlighter bl c1 s).2)).2
      = (getCachedHighlighter bl c1 s).2 ∧
    alookup ((getCachedHighlighter bl c1 s).2).highlighterPromiseByConfig
        (getStableObjectHash (.configInput c1)) = some (getCachedHighlighter bl c1 s).1 ∧
    ((getCachedHighlighter bl c1 s).2).getHighlighterCalls.length
      ≤ s.getHighlighterCalls.length + 1 := by
  have hhit : ∀ (c : HighlighterConfig) (t : ShikiCacheState) (p : Nat),
      alookup t.highlighterPromiseByConfig (getStableObjectHash (.configInput c)) = some p →
      getCachedHighlighter bl c t = (p, t) := by
    intro c t p hl
    unfold getCachedHighlighter
    simp only [hl]
  cases h : alookup s.highlighterPromiseByConfig (getStableObjectHash (.configInput c1)) with
  | some p =>
      have h1 : getCachedHighlighter bl c1 s = (p, s) := hhit c1 s p h
      have h2 : getCachedHighlighter bl c2 s = (p, s) := hhit c2 s p (by rw [← hfp]; exact h)
      rw [h1]
      exact ⟨by rw [h2], by rw [h2], h, Nat.le_succ _⟩
  | none =>
      have h1 : getCachedHighlighter bl c1 s = startHighlighterConstruction bl c1 s := by
        unfold getCachedHighlighter
        simp only [h]
      have hstored : alookup (startHighlighterConstruction bl c1 s).2.highlighterPromiseByConfig
          (getStableObjectHash (.configInput c1)) = some (startHighlighterConstruction bl c1 s).1 :=
        alookup_aset_self _ _ _
      have h2 : getCachedHighlighter bl c2 (startHighlighterConstruction bl c1 s).2
          = ((startHighlighterConstruction bl c1 s).1, (startHighlighterConstruction bl c1 s).2) :=
        hhit c2 _ _ (by rw [← hfp]; exact hstored)
      rw [h1]
      refine ⟨by rw [h2], by rw [h2], hstored, ?_⟩
      show (s.getHighlighterCalls ++ [_]).length ≤ s.getHighlighterCalls.length + 1
      simp

theorem getCachedHighlighter_constructs_once_witness :
    getStableObjectHash (.configInput ⟨none⟩) = getStableObjectHash (.configInput ⟨none⟩) ∧
    ((getCachedHighlighter [] ⟨none⟩ ((getCachedHighlighter [] ⟨none⟩ initialShikiState).2)).1
      = (getCachedHighlighter [] ⟨none⟩ initialShikiState).1 ∧
    (getCachedHighlighter [] ⟨none⟩ ((getCachedHighlighter [] ⟨none⟩ initialShikiState).2)).2
      = (getCachedHighlighter [] ⟨none⟩ initialShikiState).2 ∧
    alookup ((getCachedHighlighter [] ⟨none⟩ initialShikiState).2).highlighterPromiseByConfig
        (getStableObjectHash (.configInput ⟨none⟩))
      = some (getCachedHighlighter [] ⟨none⟩ initialShikiState).1 ∧
    ((getCachedHighlighter [] ⟨none⟩ initialShikiState).2).getHighlighterCalls.length
      ≤ initialShikiState.getHighlighterCalls.length + 1) :=
  ⟨rfl, getCachedHighlighter_constructs_once [] ⟨none⟩ ⟨none⟩ initialShikiState rfl⟩
theorem memoizeHighlighterTask_hit (h : Nat) (taskId : String)
    (f : ShikiCacheState → TaskResult × ShikiCacheState) (s : ShikiCacheState) (r : TaskResult)
    (hl : alookup (taskMapOf s h) taskId = some r) :
    memoizeHighlighterTask h taskId f s = (r, s) := by
  unfold memoizeHighlighterTask
  rw [hl]

theorem memoizeHighlighterTask_miss (h : Nat) (taskId : String)
    (f : ShikiCacheState → TaskResult × ShikiCacheState) (s : ShikiCacheState)
    (hl : alookup (taskMapOf s h) taskId = none) :
    memoizeHighlighterTask h taskId f s = ((f s).1, storeTask h taskId (f s).1 (f s).2) := by
  unfold memoizeHighlighterTask
  rw [hl]

theorem taskMapOf_storeTask_self (h : Nat) (taskId : String) (r : TaskResult)
    (s : ShikiCacheState) :
    taskMapOf (storeTask h taskId r s) h = aset (taskMapOf s h) taskId r := by
  unfold storeTask taskMapOf
  rw [alookup_aset_self]
  rfl

theorem taskMapOf_storeTask_ne (h h2 : Nat) (taskId : String) (r : TaskResult)
    (s : ShikiCacheState) (hne : h2 ≠ h) :
    taskMapOf (storeTask h taskId r s) h2 = taskMapOf s h2 := by
  unfold storeTask taskMapOf
  rw [alookup_aset_ne _ _ _ _ hne]

/-- C2: two calls to the per-instance task memoizer with the same
`(instance, taskId)` pair return the same promise, the second call leaving the
state untouched (so the underlying task function runs at most once, whatever
function the second call passes); and since task maps are scoped per instance,
a call with the same task id on a different instance whose map has no entry
for it does run its task function. -/
theorem memoizeHighlighterTask_memoizes
    (h h2 : Nat) (taskId : String)
    (f g g2 : ShikiCacheState → TaskResult × ShikiCacheState) (s : ShikiCacheState)
    (hne : h ≠ h2)
    (hfresh2 : alookup (taskMapOf ((memoizeHighlighterTask h taskId f s).2) h2) taskId = none) :
    memoizeHighlighterTask h taskId g ((memoizeHighlighterTask h taskId f s).2)
      = ((memoizeHighlighterTask h taskId f s).1, (memoizeHighlighterTask h taskId f s).2) ∧
    memoizeHighlighterTask h2 taskId g2 ((memoizeHighlighterTask h taskId f s).2)
      = ((g2 ((memoizeHighlighterTask h taskId f s).2)).1,
          storeTask h2 taskId (g2 ((memoizeHighlighterTask h taskId f s).2)).1
            (g2 ((memoizeHighlighterTask h taskId f s).2)).2) := by
  refine ⟨?_, memoizeHighlighterTask_miss h2 taskId g2 _ hfresh2⟩
  cases hl : alookup (taskMapOf s h) taskId with
  | some r =>
      rw [memoizeHighlighterTask_hit h taskId f s r hl]
      exact memoizeHighlighterTask_hit h taskId g s r hl
  | none =>
      rw [memoizeHighlighterTask_miss h taskId f s hl]
      apply memoizeHighlighterTask_hit
      rw [taskMapOf_storeTask_self, alookup_aset_self]

theorem memoizeHighlighterTask_memoizes_witness :
    (0 : Nat) ≠ 1 ∧
    alookup (taskMapOf ((memoizeHighlighterTask 0 "t"
        (fun s => (.unitResult, s)) initialShikiState).2) 1) "t" = none ∧
    (memoizeHighlighterTask 0 "t" (fun s => (.unitResult, s))
        ((memoizeHighlighterTask 0 "t" (fun s => (.unitResult, s)) initialShikiState).2)
      = ((memoizeHighlighterTask 0 "t" (fun s => (.unitResult, s)) initialShikiState).1,
         (memoizeHighlighterTask 0 "t" (fun s => (.unitResult, s)) initialShikiState).2) ∧
     memoizeHighlighterTask 1 "t" (fun s => (.unitResult, s))
        ((memoizeHighlighterTask 0 "t" (fun s => (.unitResult, s)) initialShikiState).2)
      = ((.unitResult : TaskResult),
          storeTask 1 "t" .unitResult
            ((memoizeHighlighterTask 0 "t" (fun s => (.unitResult, s)) initialShikiState).2))) :=
  ⟨by decide, by decide,
    memoizeHighlighterTask_memoizes 0 1 "t" (fun s => (.unitResult, s))
      (fun s => (.unitResult, s)) (fun s => (.unitResult, s)) initialShikiState
      (by decide) (by decide)⟩
theorem getCachedHighlighter_hit
    (bl : List (String × List LanguageRegistration)) (c : HighlighterConfig)
    (s : ShikiCacheState) (p : Nat)
    (hl : alookup s.highlighterPromiseByConfig (getStableObjectHash (.configInput c)) = some p) :
    getCachedHighlighter bl c s = (p, s) := by
  unfold getCachedHighlighter
  simp only [hl]

theorem getCachedHighlighter_miss
    (bl : List (String × List LanguageRegistration)) (c : HighlighterConfig)
    (s : ShikiCacheState)
    (hl : alookup s.highlighterPromiseByConfig (getStableObjectHash (.configInput c)) = none) :
    getCachedHighlighter bl c s = startHighlighterConstruction bl c s := by
  unfold getCachedHighlighter
  simp only [hl]

/-- C10: when an engine construction started by `getCachedHighlighter` fails,
the rejected promise stays in the process-wide cache under the configuration's
fingerprint: a later call with a configuration of the same fingerprint (in
particular a value-equal one) returns the very same, still-rejected promise,
changes nothing, and starts no new construction — the failed entry is never
evicted. -/
theorem getCachedHighlighter_no_retry_after_rejection
    (bl : List (String × List LanguageRegistration)) (c1 c2 : HighlighterConfig)
    (s : ShikiCacheState)
    (hfp : getStableObjectHash (.configInput c1) = getStableObjectHash (.configInput c2))
    (hmiss : alookup s.highlighterPromiseByConfig (getStableObjectHash (.configInput c1)) = none) :
    (getCachedHighlighter bl c2
        (rejectHighlighterConstruction (getCachedHighlighter bl c1 s).1
          (getCachedHighlighter bl c1 s).2))
      = ((getCachedHighlighter bl c1 s).1,
         rejectHighlighterConstruction (getCachedHighlighter bl c1 s).1
           (getCachedHighlighter bl c1 s).2) ∧
    alookup (rejectHighlighterConstruction (getCachedHighlighter bl c1 s).1
          (getCachedHighlighter bl c1 s).2).highlighterPromiseByConfig
        (getStableObjectHash (.configInput c2)) = some (getCachedHighlighter bl c1 s).1 ∧
    alookup (rejectHighlighterConstruction (getCachedHighlighter bl c1 s).1
          (getCachedHighlighter bl c1 s).2).highlighterPromiseState
        (getCachedHighlighter bl c1 s).1 = some .rejected ∧
    (rejectHighlighterConstruction (getCachedHighlighter bl c1 s).1
        (getCachedHighlighter bl c1 s).2).getHighlighterCalls
      = (getCachedHighlighter bl c1 s).2.getHighlighterCalls := by
  rw [getCachedHighlighter_miss bl c1 s hmiss]
  have hstored : alookup (rejectHighlighterConstruction (startHighlighterConstruction bl c1 s).1
      (startHighlighterConstruction bl c1 s).2).highlighterPromiseByConfig
      (getStableObjectHash (.configInput c2)) = some (startHighlighterConstruction bl c1 s).1 := by
    show alookup (startHighlighterConstruction bl c1 s).2.highlighterPromiseByConfig
      (getStableObjectHash (.configInput c2)) = _
    rw [← hfp]
    exact alookup_aset_self _ _ _
  refine ⟨getCachedHighlighter_hit bl c2 _ _ hstored, hstored, ?_, rfl⟩
  exact alookup_aset_self _ _ _

theorem getCachedHighlighter_no_retry_after_rejection_witness :
    (getStableObjectHash (.configInput ⟨none⟩) = getStableObjectHash (.configInput ⟨none⟩) ∧
     alookup initialShikiState.highlighterPromiseByConfig
       (getStableObjectHash (.configInput ⟨none⟩)) = none) ∧
    ((getCachedHighlighter [] ⟨none⟩
        (rejectHighlighterConstruction (getCachedHighlighter [] ⟨none⟩ initialShikiState).1
          (getCachedHighlighter [] ⟨none⟩ initialShikiState).2))
      = ((getCachedHighlighter [] ⟨none⟩ initialShikiState).1,
         rejectHighlighterConstruction (getCachedHighlighter [] ⟨none⟩ initialShikiState).1
           (getCachedHighlighter [] ⟨none⟩ initialShikiState).2) ∧
    alookup (rejectHighlighterConstruction (getCachedHighlighter [] ⟨none⟩ initialShikiState).1
          (getCachedHighlighter [] ⟨none⟩ initialShikiState).2).highlighterPromiseByConfig
        (getStableObjectHash (.configInput ⟨none⟩))
      = some (getCachedHighlighter [] ⟨none⟩ initialShikiState).1 ∧
    alookup (rejectHighlighterConstruction (getCachedHighlighter [] ⟨none⟩ initialShikiState).1
          (getCachedHighlighter [] ⟨none⟩ initialShikiState).2).highlighterPromiseState
        (getCachedHighlighter [] ⟨none⟩ initialShikiState).1 = some .rejected ∧
    (rejectHighlighterConstruction (getCachedHighlighter [] ⟨none⟩ initialShikiState).1
        (getCachedHighlighter [] ⟨none⟩ initialShikiState).2).getHighlighterCalls
      = (getCachedHighlighter [] ⟨none⟩ initialShikiState).2.getHighlighterCalls) :=
  ⟨⟨rfl, by decide⟩,
   getCachedHighlighter_no_retry_after_rejection [] ⟨none⟩ ⟨none⟩ initialShikiState rfl (by decide)⟩
theorem alookup_some_contains_key {α : Type} (l : List (String × α)) (k : String) (v : α)
    (h : alookup l k = some v) : (l.map (·.1)).contains k = true := by
  induction l with
  | nil => simp [alookup] at h
  | cons p rest ih =>
      rw [alookup_cons] at h
      by_cases hp : (p.1 == k)
      · simp only [List.map_cons, List.contains_cons]
        have : p.1 = k := by simpa using hp
        simp [this]
      · rw [if_neg (by simpa using hp)] at h
        simp only [List.map_cons, List.contains_cons]
        rw [ih h]
        simp

/-- C5: a language that is not already loaded, not a special passthrough
language, and not in the bundled registry resolves to the literal `"txt"`
(never a failure), and no `loadLanguage` call is attempted for it. -/
theorem ensureLanguageIsLoaded_unknown_falls_back_to_txt
    (bl : List (String × List LanguageRegistration)) (h : Nat) (language : String)
    (s : ShikiCacheState)
    (hnotloaded : (getLoadedLanguages s h).contains language = false)
    (hnotspecial : isSpecialLang language = false)
    (hnotbundled : (bl.map (·.1)).contains language = false)
    (hfresh : alookup (taskMapOf s h) ("loadLanguage:" ++ language) = none) :
    ensureLanguageIsLoaded bl h language s
      = (.langResult (some "txt"),
         storeTask h ("loadLanguage:" ++ language) (.langResult (some "txt")) s) ∧
    (ensureLanguageIsLoaded bl h language s).2.loadLanguageCalls = s.loadLanguageCalls ∧
    (ensureLanguageIsLoaded bl h language s).2.loadedLanguages = s.loadedLanguages := by
  have htask : loadLanguageTask bl h language s = (.langResult (some "txt"), s) := by
    unfold loadLanguageTask
    simp only [hnotloaded, hnotspecial, hnotbundled, Bool.or_self, Bool.or_false,
      Bool.not_false, if_pos]
  have hrun : ensureLanguageIsLoaded bl h language s
      = (.langResult (some "txt"),
         storeTask h ("loadLanguage:" ++ language) (.langResult (some "txt")) s) := by
    unfold ensureLanguageIsLoaded
    rw [memoizeHighlighterTask_miss _ _ _ _ hfresh, htask]
  refine ⟨hrun, ?_, ?_⟩ <;> rw [hrun] <;> rfl

theorem ensureLanguageIsLoaded_unknown_falls_back_to_txt_witness :
    ((getLoadedLanguages initialShikiState 0).contains "nosuchlang" = false ∧
     isSpecialLang "nosuchlang" = false ∧
     (([] : List (String × List LanguageRegistration)).map (·.1)).contains "nosuchlang" = false ∧
     alookup (taskMapOf initialShikiState 0) ("loadLanguage:" ++ "nosuchlang") = none) ∧
    (ensureLanguageIsLoaded [] 0 "nosuchlang" initialShikiState
      = (.langResult (some "txt"),
         storeTask 0 ("loadLanguage:" ++ "nosuchlang") (.langResult (some "txt")) initialShikiState) ∧
    (ensureLanguageIsLoaded [] 0 "nosuchlang" initialShikiState).2.loadLanguageCalls
      = initialShikiState.loadLanguageCalls ∧
    (ensureLanguageIsLoaded [] 0 "nosuchlang" initialShikiState).2.loadedLanguages
      = initialShikiState.loadedLanguages) :=
  ⟨⟨by decide, by decide, by decide, by decide⟩,
   ensureLanguageIsLoaded_unknown_falls_back_to_txt [] 0 "nosuchlang" initialShikiState
     (by decide) (by decide) (by decide) (by decide)⟩
/-- C6: for a composite language (`md`, `markdown` or `mdx`) whose bundled
definition the registry resolves, the memoized load task resolves with the
originally requested name, and — before the task settles — every lazily
embedded language not loaded at the start of the task, together with the
composite language itself when not yet loaded, is passed to the engine's
single batched `loadLanguage` call. -/
theorem ensureLanguageIsLoaded_composite_expands_embedded
    (bl : List (String × List LanguageRegistration)) (h : Nat) (language : String)
    (s : ShikiCacheState) (bundledLang : List LanguageRegistration)
    (hcomposite : ["md", "markdown", "mdx"].contains language = true)
    (hlookup : alookup bl language = some bundledLang)
    (hfresh : alookup (taskMapOf s h) ("loadLanguage:" ++ language) = none) :
    (ensureLanguageIsLoaded bl h language s).1 = .langResult (some language) ∧
    (compositeLangsToLoad bundledLang language (getLoadedLanguages s h) ≠ [] →
      (ensureLanguageIsLoaded bl h language s).2.loadLanguageCalls
        = s.loadLanguageCalls
            ++ [(h, compositeLangsToLoad bundledLang language (getLoadedLanguages s h))]) ∧
    (∀ lang ∈ missingEmbeddedLangsOf bundledLang (getLoadedLanguages s h),
      lang ∈ compositeLangsToLoad bundledLang language (getLoadedLanguages s h)) ∧
    ((getLoadedLanguages s h).contains language = false →
      language ∈ compositeLangsToLoad bundledLang language (getLoadedLanguages s h)) := by
  have hnotspecial : isSpecialLang language = false := by
    have hc : language = "md" ∨ language = "markdown" ∨ language = "mdx" := by
      simpa using hcomposite
    rcases hc with rfl | rfl | rfl <;> decide
  have hbundled : (bl.map (·.1)).contains language = true :=
    alookup_some_contains_key bl language bundledLang hlookup
  have htask : loadLanguageTask bl h language s
      = (.langResult (some language),
         if (compositeLangsToLoad bundledLang language (getLoadedLanguages s h)).length ≠ 0
         then recordLoadLanguage h
           (compositeLangsToLoad bundledLang language (getLoadedLanguages s h)) s
         else s) := by
    unfold loadLanguageTask compositeLangsToLoad
    simp only [hbundled, hnotspecial, hcomposite, hlookup, Bool.or_true, Bool.not_true,
      Bool.false_eq_true, if_false, Bool.not_false, Bool.and_true, if_true]
    split <;> split <;> simp_all
  have hrun : ensureLanguageIsLoaded bl h language s
      = ((loadLanguageTask bl h language s).1,
         storeTask h ("loadLanguage:" ++ language) (loadLanguageTask bl h language s).1
           (loadLanguageTask bl h language s).2) := by
    unfold ensureLanguageIsLoaded
    exact memoizeHighlighterTask_miss _ _ _ _ hfresh
  refine ⟨by rw [hrun, htask], ?_, ?_, ?_⟩
  · intro hne
    have hlen : (compositeLangsToLoad bundledLang language (getLoadedLanguages s h)).length ≠ 0 := by
      simpa [List.length_eq_zero] using hne
    rw [hrun, htask]
    simp only [if_pos hlen]
    rfl
  · intro lang hmem
    unfold compositeLangsToLoad
    exact List.mem_append_left _ hmem
  · intro hnotloaded
    unfold compositeLangsToLoad
    refine List.mem_append_right _ ?_
    rw [hnotloaded, hnotspecial]
    simp

theorem ensureLanguageIsLoaded_composite_expands_embedded_witness :
    ((["md", "markdown", "mdx"].contains "md" = true) ∧
     alookup [("js", [(⟨"js", []⟩ : LanguageRegistration)]),
              ("md", [(⟨"md", ["js", "css"]⟩ : LanguageRegistration)])] "md"
       = some [(⟨"md", ["js", "css"]⟩ : LanguageRegistration)] ∧
     alookup (taskMapOf initialShikiState 0) ("loadLanguage:" ++ "md") = none) ∧
    ((ensureLanguageIsLoaded [("js", [⟨"js", []⟩]), ("md", [⟨"md", ["js", "css"]⟩])] 0 "md"
        initialShikiState).1 = .langResult (some "md") ∧
     (compositeLangsToLoad [⟨"md", ["js", "css"]⟩] "md"
         (getLoadedLanguages initialShikiState 0) ≠ [] →
       (ensureLanguageIsLoaded [("js", [⟨"js", []⟩]), ("md", [⟨"md", ["js", "css"]⟩])] 0 "md"
           initialShikiState).2.loadLanguageCalls
         = initialShikiState.loadLanguageCalls
             ++ [(0, compositeLangsToLoad [⟨"md", ["js", "css"]⟩] "md"
                   (getLoadedLanguages initialShikiState 0))]) ∧
     (∀ lang ∈ missingEmbeddedLangsOf [⟨"md", ["js", "css"]⟩]
         (getLoadedLanguages initialShikiState 0),
       lang ∈ compositeLangsToLoad [⟨"md", ["js", "css"]⟩] "md"
         (getLoadedLanguages initialShikiState 0)) ∧
     ((getLoadedLanguages initialShikiState 0).contains "md" = false →
       "md" ∈ compositeLangsToLoad [⟨"md", ["js", "css"]⟩] "md"
         (getLoadedLanguages initialShikiState 0))) :=
  ⟨⟨by decide, by decide, by decide⟩,
   ensureLanguageIsLoaded_composite_expands_embedded
     [("js", [⟨"js", []⟩]), ("md", [⟨"md", ["js", "css"]⟩])] 0 "md" initialShikiState
     [⟨"md", ["js", "css"]⟩] (by decide) (by decide) (by decide)⟩
theorem string_data_inj {s1 s2 : String} (h : s1.data = s2.data) : s1 = s2 := by
  cases s1
  cases s2
  exact congrArg String.mk h

theorem string_append_left_cancel (p a b : String) (h : p ++ a = p ++ b) : a = b := by
  have hd := congrArg String.data h
  simp only [String.data_append] at hd
  exact string_data_inj (List.append_cancel_left hd)

theorem firstColon_inj (a1 : List Char) : ∀ (a2 b1 b2 : List Char),
    ':' ∉ a1 → ':' ∉ a2 → a1 ++ ':' :: b1 = a2 ++ ':' :: b2 → a1 = a2 ∧ b1 = b2 := by
  induction a1 with
  | nil =>
      intro a2 b1 b2 _ h2 heq
      cases a2 with
      | nil => simpa using heq
      | cons c rest =>
          simp only [List.nil_append, List.cons_append, List.cons.injEq] at heq
          exact absurd (by rw [← heq.1]; exact List.mem_cons_self _ _) h2
  | cons c rest ih =>
      intro a2 b1 b2 h1 h2 heq
      cases a2 with
      | nil =>
          simp only [List.nil_append, List.cons_append, List.cons.injEq] at heq
          exact absurd (by rw [heq.1]; exact List.mem_cons_self _ _) h1
      | cons c2 rest2 =>
          simp only [List.cons_append, List.cons.injEq] at heq
          obtain ⟨hc, htail⟩ := heq
          have h1' : ':' ∉ rest := fun hm => h1 (List.mem_cons_of_mem _ hm)
          have h2' : ':' ∉ rest2 := fun hm => h2 (List.mem_cons_of_mem _ hm)
          obtain ⟨ha, hb⟩ := ih rest2 b1 b2 h1' h2' htail
          exact ⟨by rw [hc, ha], hb⟩

theorem encStr_data (s : String) :
    (encStr s).data = List.replicate s.length '1' ++ ':' :: s.data := by
  simp [encStr, lengthTag, String.data_append]

theorem encStr_prefix_inj (s1 s2 : String) (r1 r2 : List Char)
    (h : (encStr s1).data ++ r1 = (encStr s2).data ++ r2) : s1 = s2 := by
  rw [encStr_data, encStr_data] at h
  have h' : List.replicate s1.length '1' ++ ':' :: (s1.data ++ r1)
      = List.replicate s2.length '1' ++ ':' :: (s2.data ++ r2) := by
    simpa [List.append_assoc] using h
  have hcolon1 : ':' ∉ List.replicate s1.length '1' := by
    simp [List.mem_replicate]
  have hcolon2 : ':' ∉ List.replicate s2.length '1' := by
    simp [List.mem_replicate]
  obtain ⟨hrep, htail⟩ := firstColon_inj _ _ _ _ hcolon1 hcolon2 h'
  have hlen : s1.length = s2.length := by
    have hl := congrArg List.length hrep
    simpa using hl
  have hdatalen : s1.data.length = s2.data.length := hlen
  exact string_data_inj (List.append_inj_left htail hdatalen)

theorem themeContent_hash_bg_inj (bg1 fg1 bg2 fg2 : String) (set1 set2 : List String)
    (h : getStableObjectHash (.themeContent bg1 fg1 set1)
       = getStableObjectHash (.themeContent bg2 fg2 set2)) : bg1 = bg2 := by
  simp only [getStableObjectHash] at h
  have hd := congrArg String.data h
  simp only [String.data_append, List.append_assoc] at hd
  have hd' : (encStr bg1).data ++ ((encStr fg1).data ++ ((String.join (set1.map encStr)).data ++ ['}']))
      = (encStr bg2).data ++ ((encStr fg2).data ++ ((String.join (set2.map encStr)).data ++ ['}'])) := by
    simpa using hd
  exact encStr_prefix_inj _ _ _ _ hd'
theorem ensureThemeIsLoaded_fst (h : Nat) (theme : ExpressiveCodeTheme) (s : ShikiCacheState) :
    (ensureThemeIsLoaded h theme s).1 = themeCacheKeyOf theme s := by
  simp only [ensureThemeIsLoaded]
  split <;> rfl

theorem rememberThemeCacheKey_loadedThemes (theme : ExpressiveCodeTheme) (s : ShikiCacheState) :
    (rememberThemeCacheKey theme s).loadedThemes = s.loadedThemes := by
  unfold rememberThemeCacheKey
  split <;> rfl

theorem rememberThemeCacheKey_promisesByHighlighter (theme : ExpressiveCodeTheme)
    (s : ShikiCacheState) :
    (rememberThemeCacheKey theme s).promisesByHighlighter = s.promisesByHighlighter := by
  unfold rememberThemeCacheKey
  split <;> rfl

theorem rememberThemeCacheKey_loadThemeCalls (theme : ExpressiveCodeTheme)
    (s : ShikiCacheState) :
    (rememberThemeCacheKey theme s).loadThemeCalls = s.loadThemeCalls := by
  unfold rememberThemeCacheKey
  split <;> rfl

theorem getLoadedThemes_remember (theme : ExpressiveCodeTheme) (s : ShikiCacheState) (h : Nat) :
    getLoadedThemes (rememberThemeCacheKey theme s) h = getLoadedThemes s h := by
  unfold getLoadedThemes
  rw [rememberThemeCacheKey_loadedThemes]

theorem taskMapOf_remember (theme : ExpressiveCodeTheme) (s : ShikiCacheState) (h : Nat) :
    taskMapOf (rememberThemeCacheKey theme s) h = taskMapOf s h := by
  unfold taskMapOf
  rw [rememberThemeCacheKey_promisesByHighlighter]

theorem ensureThemeIsLoaded_loaded (h : Nat) (theme : ExpressiveCodeTheme) (s : ShikiCacheState)
    (hload : (getLoadedThemes s h).contains (themeCacheKeyOf theme s) = true) :
    ensureThemeIsLoaded h theme s = (themeCacheKeyOf theme s, rememberThemeCacheKey theme s) := by
  simp only [ensureThemeIsLoaded]
  rw [getLoadedThemes_remember, hload]
  simp

theorem ensureThemeIsLoaded_taskHit (h : Nat) (theme : ExpressiveCodeTheme) (s : ShikiCacheState)
    (r : TaskResult)
    (hload : (getLoadedThemes s h).contains (themeCacheKeyOf theme s) = false)
    (htask : alookup (taskMapOf s h) ("loadTheme:" ++ themeCacheKeyOf theme s) = some r) :
    ensureThemeIsLoaded h theme s = (themeCacheKeyOf theme s, rememberThemeCacheKey theme s) := by
  simp only [ensureThemeIsLoaded]
  rw [getLoadedThemes_remember, hload]
  simp only [Bool.false_eq_true, if_false]
  rw [memoizeHighlighterTask_hit _ _ _ _ r (by rw [taskMapOf_remember]; exact htask)]

theorem ensureThemeIsLoaded_taskMiss (h : Nat) (theme : ExpressiveCodeTheme) (s : ShikiCacheState)
    (hload : (getLoadedThemes s h).contains (themeCacheKeyOf theme s) = false)
    (htask : alookup (taskMapOf s h) ("loadTheme:" ++ themeCacheKeyOf theme s) = none) :
    ensureThemeIsLoaded h theme s
      = (themeCacheKeyOf theme s,
         storeTask h ("loadTheme:" ++ themeCacheKeyOf theme s) .unitResult
           (loadThemeTask h (themeCacheKeyOf theme s) (rememberThemeCacheKey theme s)).2) := by
  simp only [ensureThemeIsLoaded]
  rw [getLoadedThemes_remember, hload]
  simp only [Bool.false_eq_true, if_false]
  rw [memoizeHighlighterTask_miss _ _ _ _ (by rw [taskMapOf_remember]; exact htask)]
  rfl

theorem ensureThemeIsLoaded_themeCacheKeys (h : Nat) (theme : ExpressiveCodeTheme)
    (s : ShikiCacheState) :
    (ensureThemeIsLoaded h theme s).2.themeCacheKeys
      = (rememberThemeCacheKey theme s).themeCacheKeys := by
  simp only [ensureThemeIsLoaded]
  split
  · rfl
  · simp only [memoizeHighlighterTask]
    split
    · rfl
    · rfl
theorem loadThemeMissState_loadThemeCalls (h : Nat) (K : String) (s1 : ShikiCacheState) :
    (storeTask h ("loadTheme:" ++ K) .unitResult (loadThemeTask h K s1).2).loadThemeCalls
      = s1.loadThemeCalls ++ [(h, K)] := rfl

theorem loadThemeMissState_themeCacheKeys (h : Nat) (K : String) (s1 : ShikiCacheState) :
    (storeTask h ("loadTheme:" ++ K) .unitResult (loadThemeTask h K s1).2).themeCacheKeys
      = s1.themeCacheKeys := rfl

theorem loadThemeMissState_getLoadedThemes (h : Nat) (K : String) (s1 : ShikiCacheState) :
    getLoadedThemes (storeTask h ("loadTheme:" ++ K) .unitResult (loadThemeTask h K s1).2) h
      = getLoadedThemes s1 h ++ [K] := by
  show (alookup (aset s1.loadedThemes h (getLoadedThemes s1 h ++ [K])) h).getD [] = _
  rw [alookup_aset_self]
  rfl

/-- C7: two sequential `ensureThemeIsLoaded` calls on the same instance with
themes of identical content — whether the same theme object (with its cache
key possibly already remembered in the per-object association) or two
value-equal theme objects — return the same cache key, and the underlying
engine `loadTheme` runs at most once across the two calls: the later call
either finds the key among the instance's loaded themes or joins the memoized
load task. -/
theorem ensureThemeIsLoaded_idempotent
    (h : Nat) (t1 t2 : ExpressiveCodeTheme) (s : ShikiCacheState)
    (hname : t1.name = t2.name) (hbg : t1.bg = t2.bg) (hfg : t1.fg = t2.fg)
    (hsettings : t1.settings = t2.settings)
    (hassoc : t2.objId = t1.objId ∨
      (alookup s.themeCacheKeys t1.objId = none ∧ alookup s.themeCacheKeys t2.objId = none)) :
    (ensureThemeIsLoaded h t2 (ensureThemeIsLoaded h t1 s).2).1
      = (ensureThemeIsLoaded h t1 s).1 ∧
    (ensureThemeIsLoaded h t2 (ensureThemeIsLoaded h t1 s).2).2.loadThemeCalls.length
      ≤ s.loadThemeCalls.length + 1 := by
  have hkey2 : ∀ S1 : ShikiCacheState,
      S1.themeCacheKeys = (rememberThemeCacheKey t1 s).themeCacheKeys →
      themeCacheKeyOf t2 S1 = themeCacheKeyOf t1 s := by
    intro S1 hS1
    unfold themeCacheKeyOf
    rw [hS1]
    unfold rememberThemeCacheKey
    cases ha : alookup s.themeCacheKeys t1.objId with
    | some K0 =>
        rw [if_neg (by simp [ha])]
        have hobj : t2.objId = t1.objId := by
          rcases hassoc with hobj | ⟨ha1, _⟩
          · exact hobj
          · rw [ha1] at ha
            cases ha
        rw [hobj, ha]
        rfl
    | none =>
        rw [if_pos (by simp [ha])]
        by_cases hobj : t2.objId = t1.objId
        · rw [hobj]
          show (alookup (aset s.themeCacheKeys t1.objId (themeCacheKeyOf t1 s)) t1.objId).getD _ = _
          rw [alookup_aset_self]
          simp only [Option.getD_some, Option.getD_none, themeCacheKeyOf, ha]
        · show (alookup (aset s.themeCacheKeys t1.objId (themeCacheKeyOf t1 s)) t2.objId).getD _ = _
          rw [alookup_aset_ne _ _ _ _ hobj]
          rcases hassoc with hobj' | ⟨_, ha2⟩
          · exact absurd hobj' hobj
          · rw [ha2]
            simp only [Option.getD_none]
            rw [hname, hbg, hfg, hsettings]
  by_cases hload : (getLoadedThemes s h).contains (themeCacheKeyOf t1 s) = true
  · rw [ensureThemeIsLoaded_loaded h t1 s hload]
    have hk2 := hkey2 (rememberThemeCacheKey t1 s) rfl
    have hload2 : (getLoadedThemes (rememberThemeCacheKey t1 s) h).contains
        (themeCacheKeyOf t2 (rememberThemeCacheKey t1 s)) = true := by
      rw [hk2, getLoadedThemes_remember]
      exact hload
    rw [ensureThemeIsLoaded_loaded h t2 _ hload2]
    refine ⟨hk2, ?_⟩
    rw [rememberThemeCacheKey_loadThemeCalls, rememberThemeCacheKey_loadThemeCalls]
    exact Nat.le_succ _
  · have hload' : (getLoadedThemes s h).contains (themeCacheKeyOf t1 s) = false := by
      simpa using hload
    cases htask : alookup (taskMapOf s h) ("loadTheme:" ++ themeCacheKeyOf t1 s) with
    | some r =>
        rw [ensureThemeIsLoaded_taskHit h t1 s r hload' htask]
        have hk2 := hkey2 (rememberThemeCacheKey t1 s) rfl
        have hload2 : (getLoadedThemes (rememberThemeCacheKey t1 s) h).contains
            (themeCacheKeyOf t2 (rememberThemeCacheKey t1 s)) = false := by
          rw [hk2, getLoadedThemes_remember]
          exact hload'
        have htask2 : alookup (taskMapOf (rememberThemeCacheKey t1 s) h)
            ("loadTheme:" ++ themeCacheKeyOf t2 (rememberThemeCacheKey t1 s)) = some r := by
          rw [hk2, taskMapOf_remember]
          exact htask
        rw [ensureThemeIsLoaded_taskHit h t2 _ r hload2 htask2]
        refine ⟨hk2, ?_⟩
        rw [rememberThemeCacheKey_loadThemeCalls, rememberThemeCacheKey_loadThemeCalls]
        exact Nat.le_succ _
    | none =>
        rw [ensureThemeIsLoaded_taskMiss h t1 s hload' htask]
        have hk2 := hkey2 _ (loadThemeMissState_themeCacheKeys h (themeCacheKeyOf t1 s)
          (rememberThemeCacheKey t1 s))
        have hload2 : (getLoadedThemes (storeTask h ("loadTheme:" ++ themeCacheKeyOf t1 s)
            .unitResult (loadThemeTask h (themeCacheKeyOf t1 s)
              (rememberThemeCacheKey t1 s)).2) h).contains
            (themeCacheKeyOf t2 (storeTask h ("loadTheme:" ++ themeCacheKeyOf t1 s)
              .unitResult (loadThemeTask h (themeCacheKeyOf t1 s)
                (rememberThemeCacheKey t1 s)).2)) = true := by
          rw [hk2, loadThemeMissState_getLoadedThemes]
          simp
        rw [ensureThemeIsLoaded_loaded h t2 _ hload2]
        refine ⟨hk2, ?_⟩
        rw [rememberThemeCacheKey_loadThemeCalls, loadThemeMissState_loadThemeCalls,
          rememberThemeCacheKey_loadThemeCalls]
        simp

theorem ensureThemeIsLoaded_idempotent_witness :
    ((⟨0, "dark", "#000", "#fff", ["r"]⟩ : ExpressiveCodeTheme).name
        = (⟨1, "dark", "#000", "#fff", ["r"]⟩ : ExpressiveCodeTheme).name ∧
     (⟨0, "dark", "#000", "#fff", ["r"]⟩ : ExpressiveCodeTheme).bg
        = (⟨1, "dark", "#000", "#fff", ["r"]⟩ : ExpressiveCodeTheme).bg ∧
     (⟨0, "dark", "#000", "#fff", ["r"]⟩ : ExpressiveCodeTheme).fg
        = (⟨1, "dark", "#000", "#fff", ["r"]⟩ : ExpressiveCodeTheme).fg ∧
     (⟨0, "dark", "#000", "#fff", ["r"]⟩ : ExpressiveCodeTheme).settings
        = (⟨1, "dark", "#000", "#fff", ["r"]⟩ : ExpressiveCodeTheme).settings ∧
     ((⟨1, "dark", "#000", "#fff", ["r"]⟩ : ExpressiveCodeTheme).objId
          = (⟨0, "dark", "#000", "#fff", ["r"]⟩ : ExpressiveCodeTheme).objId ∨
       (alookup initialShikiState.themeCacheKeys 0 = none ∧
        alookup initialShikiState.themeCacheKeys 1 = none))) ∧
    ((ensureThemeIsLoaded 7 ⟨1, "dark", "#000", "#fff", ["r"]⟩
        (ensureThemeIsLoaded 7 ⟨0, "dark", "#000", "#fff", ["r"]⟩ initialShikiState).2).1
      = (ensureThemeIsLoaded 7 ⟨0, "dark", "#000", "#fff", ["r"]⟩ initialShikiState).1 ∧
     (ensureThemeIsLoaded 7 ⟨1, "dark", "#000", "#fff", ["r"]⟩
        (ensureThemeIsLoaded 7 ⟨0, "dark", "#000", "#fff", ["r"]⟩ initialShikiState).2).2.loadThemeCalls.length
      ≤ initialShikiState.loadThemeCalls.length + 1) :=
  ⟨⟨rfl, rfl, rfl, rfl, Or.inr ⟨rfl, rfl⟩⟩,
   ensureThemeIsLoaded_idempotent 7 ⟨0, "dark", "#000", "#fff", ["r"]⟩
     ⟨1, "dark", "#000", "#fff", ["r"]⟩ initialShikiState rfl rfl rfl rfl
     (Or.inr ⟨rfl, rfl⟩)⟩
theorem taskMapOf_loadThemeTask (h h2 : Nat) (K : String) (s : ShikiCacheState) :
    taskMapOf (loadThemeTask h K s).2 h2 = taskMapOf s h2 := rfl

theorem themeCacheKeyOf_none (theme : ExpressiveCodeTheme) (s : ShikiCacheState)
    (ha : alookup s.themeCacheKeys theme.objId = none) :
    themeCacheKeyOf theme s
      = theme.name ++ "-"
          ++ getStableObjectHash (.themeContent theme.bg theme.fg theme.settings) := by
  unfold themeCacheKeyOf
  rw [ha]
  rfl

/-- C4: a theme object with no previously assigned cache key gets the key
`displayName ++ "-" ++ fingerprint(bg, fg, settings)`; consequently two
distinct theme objects sharing a display name but differing in background
color get different cache keys, and each of them is loaded independently (two
`loadTheme` engine calls). -/
theorem ensureThemeIsLoaded_content_sensitive
    (h : Nat) (t1 t2 : ExpressiveCodeTheme) (s : ShikiCacheState)
    (hname : t1.name = t2.name) (hbg : t1.bg ≠ t2.bg) (hobj : t2.objId ≠ t1.objId)
    (hassoc1 : alookup s.themeCacheKeys t1.objId = none)
    (hassoc2 : alookup s.themeCacheKeys t2.objId = none)
    (hload1 : (getLoadedThemes s h).contains
      (t1.name ++ "-" ++ getStableObjectHash (.themeContent t1.bg t1.fg t1.settings)) = false)
    (hload2 : (getLoadedThemes s h).contains
      (t2.name ++ "-" ++ getStableObjectHash (.themeContent t2.bg t2.fg t2.settings)) = false)
    (htask1 : alookup (taskMapOf s h) ("loadTheme:"
      ++ (t1.name ++ "-" ++ getStableObjectHash (.themeContent t1.bg t1.fg t1.settings))) = none)
    (htask2 : alookup (taskMapOf s h) ("loadTheme:"
      ++ (t2.name ++ "-" ++ getStableObjectHash (.themeContent t2.bg t2.fg t2.settings))) = none) :
    (ensureThemeIsLoaded h t1 s).1
      = t1.name ++ "-" ++ getStableObjectHash (.themeContent t1.bg t1.fg t1.settings) ∧
    (ensureThemeIsLoaded h t2 (ensureThemeIsLoaded h t1 s).2).1
      = t2.name ++ "-" ++ getStableObjectHash (.themeContent t2.bg t2.fg t2.settings) ∧
    (ensureThemeIsLoaded h t1 s).1 ≠ (ensureThemeIsLoaded h t2 (ensureThemeIsLoaded h t1 s).2).1 ∧
    (ensureThemeIsLoaded h t2 (ensureThemeIsLoaded h t1 s).2).2.loadThemeCalls
      = s.loadThemeCalls
          ++ [(h, t1.name ++ "-" ++ getStableObjectHash (.themeContent t1.bg t1.fg t1.settings)),
              (h, t2.name ++ "-" ++ getStableObjectHash (.themeContent t2.bg t2.fg t2.settings))] := by
  have hK1 := themeCacheKeyOf_none t1 s hassoc1
  have hfne : t1.name ++ "-" ++ getStableObjectHash (.themeContent t1.bg t1.fg t1.settings)
      ≠ t2.name ++ "-" ++ getStableObjectHash (.themeContent t2.bg t2.fg t2.settings) := by
    intro heq
    rw [hname] at heq
    have hhash := string_append_left_cancel _ _ _ heq
    exact hbg (themeContent_hash_bg_inj _ _ _ _ _ _ hhash)
  have hcall1 : ensureThemeIsLoaded h t1 s
      = (themeCacheKeyOf t1 s,
         storeTask h ("loadTheme:" ++ themeCacheKeyOf t1 s) .unitResult
           (loadThemeTask h (themeCacheKeyOf t1 s) (rememberThemeCacheKey t1 s)).2) :=
    ensureThemeIsLoaded_taskMiss h t1 s (by rw [hK1]; exact hload1) (by rw [hK1]; exact htask1)
  have hM1keys : (ensureThemeIsLoaded h t1 s).2.themeCacheKeys
      = aset s.themeCacheKeys t1.objId (themeCacheKeyOf t1 s) := by
    rw [ensureThemeIsLoaded_themeCacheKeys]
    unfold rememberThemeCacheKey
    rw [if_pos (by simp [hassoc1])]
  have hK2 : themeCacheKeyOf t2 (ensureThemeIsLoaded h t1 s).2
      = t2.name ++ "-" ++ getStableObjectHash (.themeContent t2.bg t2.fg t2.settings) := by
    unfold themeCacheKeyOf
    rw [hM1keys, alookup_aset_ne _ _ _ _ hobj, hassoc2]
    rfl
  have hM1loaded : getLoadedThemes (ensureThemeIsLoaded h t1 s).2 h
      = getLoadedThemes s h
          ++ [t1.name ++ "-" ++ getStableObjectHash (.themeContent t1.bg t1.fg t1.settings)] := by
    rw [hcall1]
    show getLoadedThemes (storeTask h ("loadTheme:" ++ themeCacheKeyOf t1 s) .unitResult
      (loadThemeTask h (themeCacheKeyOf t1 s) (rememberThemeCacheKey t1 s)).2) h = _
    rw [loadThemeMissState_getLoadedThemes, getLoadedThemes_remember, hK1]
  have hM1task : taskMapOf (ensureThemeIsLoaded h t1 s).2 h
      = aset (taskMapOf s h)
          ("loadTheme:" ++ (t1.name ++ "-"
            ++ getStableObjectHash (.themeContent t1.bg t1.fg t1.settings))) .unitResult := by
    rw [hcall1]
    show taskMapOf (storeTask h ("loadTheme:" ++ themeCacheKeyOf t1 s) .unitResult
      (loadThemeTask h (themeCacheKeyOf t1 s) (rememberThemeCacheKey t1 s)).2) h = _
    rw [taskMapOf_storeTask_self, taskMapOf_loadThemeTask, taskMapOf_remember, hK1]
  have htidne : "loadTheme:"
      ++ (t2.name ++ "-" ++ getStableObjectHash (.themeContent t2.bg t2.fg t2.settings))
      ≠ "loadTheme:"
      ++ (t1.name ++ "-" ++ getStableObjectHash (.themeContent t1.bg t1.fg t1.settings)) := by
    intro heq
    exact hfne (string_append_left_cancel _ _ _ heq).symm
  have hload2' : (getLoadedThemes (ensureThemeIsLoaded h t1 s).2 h).contains
      (themeCacheKeyOf t2 (ensureThemeIsLoaded h t1 s).2) = false := by
    rw [hK2, hM1loaded]
    simp only [List.contains_eq_any_beq, List.any_append] at hload2 ⊢
    simp [hload2, hfne.symm]
  have htask2' : alookup (taskMapOf (ensureThemeIsLoaded h t1 s).2 h)
      ("loadTheme:" ++ themeCacheKeyOf t2 (ensureThemeIsLoaded h t1 s).2) = none := by
    rw [hK2, hM1task, alookup_aset_ne _ _ _ _ htidne]
    exact htask2
  have hcall2 := ensureThemeIsLoaded_taskMiss h t2 (ensureThemeIsLoaded h t1 s).2 hload2' htask2'
  refine ⟨by rw [ensureThemeIsLoaded_fst, hK1], by rw [ensureThemeIsLoaded_fst, hK2], ?_, ?_⟩
  · rw [ensureThemeIsLoaded_fst, ensureThemeIsLoaded_fst, hK1, hK2]
    exact hfne
  · rw [hcall2]
    show (storeTask h _ _ (loadThemeTask h (themeCacheKeyOf t2 (ensureThemeIsLoaded h t1 s).2)
      (rememberThemeCacheKey t2 (ensureThemeIsLoaded h t1 s).2)).2).loadThemeCalls = _
    rw [loadThemeMissState_loadThemeCalls, rememberThemeCacheKey_loadThemeCalls, hK2]
    rw [hcall1]
    show (storeTask h _ _ (loadThemeTask h (themeCacheKeyOf t1 s)
      (rememberThemeCacheKey t1 s)).2).loadThemeCalls ++ _ = _
    rw [loadThemeMissState_loadThemeCalls, rememberThemeCacheKey_loadThemeCalls, hK1]
    simp

theorem ensureThemeIsLoaded_content_sensitive_witness :
    ((⟨0, "dark", "#000", "#fff", []⟩ : ExpressiveCodeTheme).name
        = (⟨1, "dark", "#111", "#fff", []⟩ : ExpressiveCodeTheme).name ∧
     (⟨0, "dark", "#000", "#fff", []⟩ : ExpressiveCodeTheme).bg
        ≠ (⟨1, "dark", "#111", "#fff", []⟩ : ExpressiveCodeTheme).bg ∧
     (⟨1, "dark", "#111", "#fff", []⟩ : ExpressiveCodeTheme).objId
        ≠ (⟨0, "dark", "#000", "#fff", []⟩ : ExpressiveCodeTheme).objId ∧
     alookup initialShikiState.themeCacheKeys 0 = none ∧
     alookup initialShikiState.themeCacheKeys 1 = none) ∧
    ((ensureThemeIsLoaded 0 ⟨0, "dark", "#000", "#fff", []⟩ initialShikiState).1
      = "dark" ++ "-" ++ getStableObjectHash (.themeContent "#000" "#fff" []) ∧
     (ensureThemeIsLoaded 0 ⟨1, "dark", "#111", "#fff", []⟩
        (ensureThemeIsLoaded 0 ⟨0, "dark", "#000", "#fff", []⟩ initialShikiState).2).1
      = "dark" ++ "-" ++ getStableObjectHash (.themeContent "#111" "#fff" []) ∧
     (ensureThemeIsLoaded 0 ⟨0, "dark", "#000", "#fff", []⟩ initialShikiState).1
      ≠ (ensureThemeIsLoaded 0 ⟨1, "dark", "#111", "#fff", []⟩
          (ensureThemeIsLoaded 0 ⟨0, "dark", "#000", "#fff", []⟩ initialShikiState).2).1 ∧
     (ensureThemeIsLoaded 0 ⟨1, "dark", "#111", "#fff", []⟩
        (ensureThemeIsLoaded 0 ⟨0, "dark", "#000", "#fff", []⟩ initialShikiState).2).2.loadThemeCalls
      = initialShikiState.loadThemeCalls
          ++ [(0, "dark" ++ "-" ++ getStableObjectHash (.themeContent "#000" "#fff" [])),
              (0, "dark" ++ "-" ++ getStableObjectHash (.themeContent "#111" "#fff" []))]) :=
  ⟨⟨rfl, by decide, by decide, rfl, rfl⟩,
   ensureThemeIsLoaded_content_sensitive 0 ⟨0, "dark", "#000", "#fff", []⟩
     ⟨1, "dark", "#111", "#fff", []⟩ initialShikiState rfl (by decide) (by decide)
     rfl rfl (by decide) (by decide) (by decide) (by decide)⟩
/-- C9: a document whose tree contains no code node is returned without any
mutation and without invoking `customCreateRenderer` or `createRenderer`;
the renderer is constructed exactly once, triggered by the first document
whose collected code-node list is non-empty, and a document arriving with the
renderer already cached reuses it without a new construction. -/
theorem transformer_constructs_renderer_lazily
    (opts : RemarkExpressiveCodeOptions) (engine : ExpressiveCodeEngine)
    (tree : MdNode) (filePath : Option String)
    (cache : Option RemarkExpressiveCodeRenderer) (calls : Nat) :
    (collectCode tree [] = [] →
      transformer opts engine tree filePath cache calls
        = { tree := tree, asyncRenderer := cache, rendererConstructions := calls }) ∧
    (collectCode tree [] ≠ [] → ∀ r, cache = some r →
      (transformer opts engine tree filePath cache calls).asyncRenderer = some r ∧
      (transformer opts engine tree filePath cache calls).rendererConstructions = calls) ∧
    (collectCode tree [] ≠ [] → cache = none →
      (transformer opts engine tree filePath cache calls).rendererConstructions = calls + 1 ∧
      (transformer opts engine tree filePath cache calls).asyncRenderer
        = some (match opts.customCreateRenderer with
                | some custom => custom ()
                | none => createRenderer engine)) := by
  refine ⟨?_, ?_, ?_⟩
  · intro hempty
    simp only [transformer, hempty, List.length_nil]
    rfl
  · intro hne r hcache
    have hlen : ¬ (collectCode tree []).length = 0 := by
      simpa [List.length_eq_zero] using hne
    subst hcache
    simp only [transformer, if_neg hlen]
    refine ⟨?_, ?_⟩ <;> trivial
  · intro hne hcache
    have hlen : ¬ (collectCode tree []).length = 0 := by
      simpa [List.length_eq_zero] using hne
    subst hcache
    simp only [transformer, if_neg hlen]
    refine ⟨?_, ?_⟩ <;> trivial

theorem transformer_constructs_renderer_lazily_witness :
    (collectCode (.parentNode "root" [.leaf "text" "hello"]) [] = [] ∧
     transformer {} sampleEngine (.parentNode "root" [.leaf "text" "hello"]) none none 0
       = { tree := .parentNode "root" [.leaf "text" "hello"], asyncRenderer := none,
           rendererConstructions := 0 }) ∧
    (collectCode (.parentNode "root" [.code ⟨none, none, "c"⟩]) [] ≠ [] ∧
     (transformer {} sampleEngine (.parentNode "root" [.code ⟨none, none, "c"⟩]) none none 0).rendererConstructions
       = 0 + 1 ∧
     (transformer {} sampleEngine (.parentNode "root" [.code ⟨none, none, "c"⟩]) none none 0).asyncRenderer
       = some (createRenderer sampleEngine)) ∧
    ((transformer {} sampleEngine (.parentNode "root" [.code ⟨none, none, "c"⟩]) none
        (some sampleRenderer) 5).asyncRenderer = some sampleRenderer ∧
     (transformer {} sampleEngine (.parentNode "root" [.code ⟨none, none, "c"⟩]) none
        (some sampleRenderer) 5).rendererConstructions = 5) := by
  have hdoc : collectCode (MdNode.parentNode "root" [.code ⟨none, none, "c"⟩]) [] ≠ [] := by
    intro hc
    simp [collectCode, collectCodeChildren] at hc
  refine ⟨⟨rfl, (transformer_constructs_renderer_lazily {} sampleEngine _ none none 0).1 rfl⟩,
    ⟨hdoc, ?_, ?_⟩, ?_⟩
  · exact ((transformer_constructs_renderer_lazily {} sampleEngine _ none none 0).2.2 hdoc rfl).1
  · exact ((transformer_constructs_renderer_lazily {} sampleEngine _ none none 0).2.2 hdoc rfl).2
  · exact (transformer_constructs_renderer_lazily {} sampleEngine _ none
      (some sampleRenderer) 5).2.1 hdoc sampleRenderer rfl
theorem addGroupStyles_mem_set (styles : List String) (acc : List String × List String)
    (x : String) (hx : x ∈ acc.2) : x ∈ (addGroupStyles styles acc).2 := by
  induction styles generalizing acc with
  | nil => simpa [addGroupStyles] using hx
  | cons style rest ih =>
      unfold addGroupStyles
      by_cases hs : style ∈ acc.2
      · rw [if_pos hs]
        exact ih acc hx
      · rw [if_neg hs]
        exact ih _ (by simp [hx])

theorem addGroupStyles_count (styles : List String) (acc : List String × List String)
    (x : String) (hx : x ∈ acc.2) :
    (addGroupStyles styles acc).1.count x = acc.1.count x := by
  induction styles generalizing acc with
  | nil => rfl
  | cons style rest ih =>
      unfold addGroupStyles
      by_cases hs : style ∈ acc.2
      · rw [if_pos hs]
        exact ih acc hx
      · rw [if_neg hs]
        have hxs : x ≠ style := fun h => hs (h ▸ hx)
        rw [ih (acc.1 ++ [style], acc.2 ++ [style]) (by simp [hx])]
        simp [List.count_append, List.count_singleton, hxs]

theorem addGroupStyles_not_mem (styles : List String) (acc : List String × List String)
    (x : String) (hx : x ∈ acc.2) (hnx : x ∉ acc.1) : x ∉ (addGroupStyles styles acc).1 := by
  intro hmem
  have hc := addGroupStyles_count styles acc x hx
  rw [List.count_eq_zero_of_not_mem hnx] at hc
  exact (List.count_pos_iff.mpr hmem).ne' hc

theorem addStyleIfNew_mem_set (style : String) (acc : List String × List String)
    (x : String) (hx : x ∈ acc.2) : x ∈ (addStyleIfNew style acc).2 := by
  unfold addStyleIfNew
  split <;> simp [hx]

theorem addStyleIfNew_self_mem_set (style : String) (acc : List String × List String)
    (hs : style ≠ "") : style ∈ (addStyleIfNew style acc).2 := by
  unfold addStyleIfNew
  split
  · simp
  · rename_i hcond
    rcases not_and_or.mp hcond with h | h
    · exact absurd hs h
    · simpa using h

theorem addStyleIfNew_not_mem (style : String) (acc : List String × List String)
    (x : String) (hx : x ∈ acc.2) (hnx : x ∉ acc.1) : x ∉ (addStyleIfNew style acc).1 := by
  unfold addStyleIfNew
  split
  · rename_i hcond
    intro hmem
    rcases List.mem_append.mp hmem with h | h
    · exact hnx h
    · rcases List.mem_singleton.mp h with rfl
      exact hcond.2 hx
  · exact hnx

theorem addStyleIfNew_count (style : String) (acc : List String × List String)
    (x : String) (hx : x ∈ acc.2) :
    (addStyleIfNew style acc).1.count x = acc.1.count x := by
  unfold addStyleIfNew
  split
  · rename_i hcond
    have hxs : x ≠ style := fun h => hcond.2 (h ▸ hx)
    simp [List.count_append, hxs]
  · rfl

theorem collectStylesToPrepend_mem_set (B T : String) (styles : List String)
    (addedStyles : List String) (x : String) (hx : x ∈ addedStyles) :
    x ∈ (collectStylesToPrepend B T styles addedStyles).2 := by
  unfold collectStylesToPrepend
  exact addGroupStyles_mem_set _ _ _ (addStyleIfNew_mem_set _ _ _ (addStyleIfNew_mem_set _ _ _ hx))

theorem collectStylesToPrepend_not_mem (B T : String) (styles : List String)
    (addedStyles : List String) (x : String) (hx : x ∈ addedStyles) :
    x ∉ (collectStylesToPrepend B T styles addedStyles).1 := by
  unfold collectStylesToPrepend
  have h1 : x ∈ (addStyleIfNew B ([], addedStyles)).2 := addStyleIfNew_mem_set _ _ _ hx
  have h1' : x ∉ (addStyleIfNew B ([], addedStyles)).1 :=
    addStyleIfNew_not_mem _ _ _ hx (by simp)
  exact addGroupStyles_not_mem _ _ _ (addStyleIfNew_mem_set _ _ _ h1)
    (addStyleIfNew_not_mem _ _ _ h1 h1')
theorem collectStylesToPrepend_base_count (B T : String) (styles : List String) (hB : B ≠ "") :
    ((collectStylesToPrepend B T styles []).1).count B = 1 := by
  unfold collectStylesToPrepend
  have h1 : addStyleIfNew B (([], []) : List String × List String) = ([B], [B]) := by
    unfold addStyleIfNew
    rw [if_pos ⟨hB, by simp⟩]
    rfl
  rw [h1]
  have hBmem : B ∈ (addStyleIfNew T (([B], [B]) : List String × List String)).2 :=
    addStyleIfNew_mem_set _ _ _ (by simp)
  rw [addGroupStyles_count _ _ _ hBmem, addStyleIfNew_count _ _ _ (by simp)]
  simp

theorem collectStylesToPrepend_theme_count (B T : String) (styles : List String) (hT : T ≠ "") :
    ((collectStylesToPrepend B T styles []).1).count T = 1 := by
  unfold collectStylesToPrepend
  have hTmem : T ∈ (addStyleIfNew T (addStyleIfNew B (([], []) : List String × List String))).2 :=
    addStyleIfNew_self_mem_set _ _ hT
  rw [addGroupStyles_count _ _ _ hTmem]
  by_cases hB : B ≠ ""
  · have h1 : addStyleIfNew B (([], []) : List String × List String) = ([B], [B]) := by
      unfold addStyleIfNew
      rw [if_pos ⟨hB, by simp⟩]
      rfl
    rw [h1]
    by_cases hTB : T = B
    · have hskip : addStyleIfNew T (([B], [B]) : List String × List String) = ([B], [B]) := by
        unfold addStyleIfNew
        rw [if_neg (by simp [hTB])]
      rw [hskip, hTB]
      simp
    · have hfire : addStyleIfNew T (([B], [B]) : List String × List String)
          = ([B, T], [B, T]) := by
        unfold addStyleIfNew
        rw [if_pos ⟨hT, by simp [hTB]⟩]
        rfl
      rw [hfire]
      simp [List.count_cons, Ne.symm hTB]
  · have h1 : addStyleIfNew B (([], []) : List String × List String) = ([], []) := by
      unfold addStyleIfNew
      rw [if_neg (fun hc => hB hc.1)]
    rw [h1]
    have hfire : addStyleIfNew T (([], []) : List String × List String) = ([T], [T]) := by
      unfold addStyleIfNew
      rw [if_pos ⟨hT, by simp⟩]
      rfl
    rw [hfire]
    simp

theorem collectScriptElements_mem_set (mods : List String) (added : List String) (x : String)
    (hx : x ∈ added) : x ∈ (collectScriptElements mods added).2 := by
  induction mods generalizing added with
  | nil => simpa [collectScriptElements] using hx
  | cons mc rest ih =>
      unfold collectScriptElements
      by_cases hm : mc ∈ added
      · rw [if_pos hm]
        exact ih added hx
      · rw [if_neg hm]
        exact ih _ (by simp [hx])

theorem collectScriptElements_all_mem (mods : List String) (added : List String) :
    ∀ m ∈ mods, m ∈ (collectScriptElements mods added).2 := by
  induction mods generalizing added with
  | nil => simp
  | cons mc rest ih =>
      intro m hm
      unfold collectScriptElements
      by_cases hmc : mc ∈ added
      · rw [if_pos hmc]
        rcases List.mem_cons.mp hm with rfl | hm
        · exact collectScriptElements_mem_set rest added m hmc
        · exact ih added m hm
      · rw [if_neg hmc]
        rcases List.mem_cons.mp hm with rfl | hm
        · exact collectScriptElements_mem_set rest _ m (by simp)
        · exact ih _ m hm

theorem collectScriptElements_noop (mods : List String) (added : List String)
    (h : ∀ m ∈ mods, m ∈ added) : collectScriptElements mods added = ([], added) := by
  induction mods with
  | nil => rfl
  | cons mc rest ih =>
      unfold collectScriptElements
      rw [if_pos (h mc (by simp))]
      exact ih (fun m hm => h m (by simp [hm]))

theorem collectScriptElements_eq_modules (mods : List String) (added : List String) :
    collectScriptElements mods added
      = ((collectScriptModules mods added).1.map
          (fun m => Hast.element "script" [("type", "module")] [Hast.text m]),
         (collectScriptModules mods added).2) := by
  induction mods generalizing added with
  | nil => rfl
  | cons mc rest ih =>
      unfold collectScriptElements collectScriptModules
      by_cases hm : mc ∈ added
      · rw [if_pos hm, if_pos hm]
        exact ih added
      · rw [if_neg hm, if_neg hm]
        rw [ih (added ++ [mc])]
        rfl

theorem collectScriptModules_count_zero (mods : List String) (added : List String) (m : String)
    (hm : m ∈ added) : ((collectScriptModules mods added).1).count m = 0 := by
  induction mods generalizing added with
  | nil => rfl
  | cons mc rest ih =>
      unfold collectScriptModules
      by_cases hmc : mc ∈ added
      · rw [if_pos hmc]
        exact ih added hm
      · rw [if_neg hmc]
        have hne : m ≠ mc := fun h => hmc (h ▸ hm)
        simp only [List.count_cons]
        rw [ih (added ++ [mc]) (by simp [hm])]
        simp [Ne.symm hne]

theorem collectScriptModules_count_one (mods : List String) (added : List String) (m : String)
    (hm : m ∈ mods) (hnm : m ∉ added) : ((collectScriptModules mods added).1).count m = 1 := by
  induction mods generalizing added with
  | nil => cases hm
  | cons mc rest ih =>
      unfold collectScriptModules
      by_cases hmc : mc ∈ added
      · rw [if_pos hmc]
        have hm' : m ∈ rest := by
          rcases List.mem_cons.mp hm with rfl | hm'
          · exact absurd hmc hnm
          · exact hm'
        exact ih added hm' hnm
      · rw [if_neg hmc]
        by_cases hme : m = mc
        · subst hme
          simp only [List.count_cons]
          rw [collectScriptModules_count_zero rest (added ++ [m]) m (by simp)]
          simp
        · simp only [List.count_cons]
          have hm' : m ∈ rest := by
            rcases List.mem_cons.mp hm with rfl | hm'
            · exact absurd rfl hme
            · exact hm'
          rw [ih (added ++ [mc]) hm' (by simp [hnm, hme])]
          have : mc ≠ m := fun h => hme h.symm
          simp [this]
theorem renderDocBlocks_map_html (r : RemarkExpressiveCodeRenderer)
    (bs : List ExpressiveCodeBlock) (addedStyles addedJsModules : List String) :
    (renderDocBlocks r bs addedStyles addedJsModules).map (fun e => e.html)
      = renderAllBlocks r bs addedStyles addedJsModules := by
  induction bs generalizing addedStyles addedJsModules with
  | nil => rfl
  | cons b rest ih =>
      simp only [renderDocBlocks, renderAllBlocks, renderBlockToHtml, List.map_cons]
      rw [ih]

theorem renderDocBlocks_no_shared_assets (r : RemarkExpressiveCodeRenderer)
    (bs : List ExpressiveCodeBlock) :
    ∀ addedStyles addedJsModules : List String,
    (r.baseStyles ≠ "" → r.baseStyles ∈ addedStyles) →
    (r.themeStyles ≠ "" → r.themeStyles ∈ addedStyles) →
    (∀ m ∈ r.jsModules, m ∈ addedJsModules) →
    ∀ e ∈ renderDocBlocks r bs addedStyles addedJsModules,
      (r.baseStyles ≠ "" → r.baseStyles ∉ e.stylesToPrepend) ∧
      (r.themeStyles ≠ "" → r.themeStyles ∉ e.stylesToPrepend) ∧
      e.scriptElements = [] := by
  induction bs with
  | nil =>
      intro as js _ _ _ e he
      simp [renderDocBlocks] at he
  | cons b rest ih =>
      intro as js hB hT hM e he
      simp only [renderDocBlocks, List.mem_cons] at he
      rcases he with rfl | he
      · refine ⟨fun h => collectStylesToPrepend_not_mem _ _ _ _ _ (hB h),
          fun h => collectStylesToPrepend_not_mem _ _ _ _ _ (hT h), ?_⟩
        show (collectScriptElements r.jsModules js).1 = []
        rw [collectScriptElements_noop _ _ hM]
      · exact ih _ _
          (fun h => collectStylesToPrepend_mem_set _ _ _ _ _ (hB h))
          (fun h => collectStylesToPrepend_mem_set _ _ _ _ _ (hT h))
          (fun m hm => collectScriptElements_mem_set _ _ _ (hM m hm)) e he
/-- C3: when a document's code blocks are rendered in order with fresh
per-document added-asset sets (as the transformer does), the shared assets are
emitted exactly once: the first block's not-yet-emitted non-empty styles are
combined into a single style element which, followed by one script element
per not-yet-emitted module payload, is prepended — not appended — to the
root-level children of its rendered markup; non-empty base and theme styles
each occur exactly once in the first block's combined styles, every script
module payload is emitted exactly once there, and every later block's output
carries none of those shared assets (no base styles, no theme styles, and no
script elements at all), because the per-document sets are updated before
each emission check. -/
theorem renderBlockToHtml_emits_shared_assets_once
    (r : RemarkExpressiveCodeRenderer) (b1 : ExpressiveCodeBlock)
    (rest : List ExpressiveCodeBlock) :
    renderAllBlocks r (b1 :: rest) [] []
      = toHtmlElement (prependChildren (r.ec b1).renderedGroupAst
            (extraElementsOf
              (collectStylesToPrepend r.baseStyles r.themeStyles (r.ec b1).styles []).1
              (collectScriptElements r.jsModules []).1))
        :: renderAllBlocks r rest
            (collectStylesToPrepend r.baseStyles r.themeStyles (r.ec b1).styles []).2
            (collectScriptElements r.jsModules []).2 ∧
    (r.baseStyles ≠ "" →
      ((collectStylesToPrepend r.baseStyles r.themeStyles (r.ec b1).styles []).1).count
        r.baseStyles = 1) ∧
    (r.themeStyles ≠ "" →
      ((collectStylesToPrepend r.baseStyles r.themeStyles (r.ec b1).styles []).1).count
        r.themeStyles = 1) ∧
    (collectScriptElements r.jsModules []).1
      = (collectScriptModules r.jsModules []).1.map
          (fun m => Hast.element "script" [("type", "module")] [Hast.text m]) ∧
    (∀ m ∈ r.jsModules, ((collectScriptModules r.jsModules []).1).count m = 1) ∧
    (∀ e ∈ renderDocBlocks r rest
        (collectStylesToPrepend r.baseStyles r.themeStyles (r.ec b1).styles []).2
        (collectScriptElements r.jsModules []).2,
      (r.baseStyles ≠ "" → r.baseStyles ∉ e.stylesToPrepend) ∧
      (r.themeStyles ≠ "" → r.themeStyles ∉ e.stylesToPrepend) ∧
      e.scriptElements = []) ∧
    (renderDocBlocks r rest
        (collectStylesToPrepend r.baseStyles r.themeStyles (r.ec b1).styles []).2
        (collectScriptElements r.jsModules []).2).map (fun e => e.html)
      = renderAllBlocks r rest
          (collectStylesToPrepend r.baseStyles r.themeStyles (r.ec b1).styles []).2
          (collectScriptElements r.jsModules []).2 := by
  refine ⟨?_, fun h => collectStylesToPrepend_base_count _ _ _ h,
    fun h => collectStylesToPrepend_theme_count _ _ _ h,
    ?_, fun m hm => collectScriptModules_count_one _ _ _ hm (by simp),
    ?_, renderDocBlocks_map_html r rest _ _⟩
  · simp only [renderAllBlocks, renderBlockToHtml]
  · rw [collectScriptElements_eq_modules]
  · apply renderDocBlocks_no_shared_assets
    · intro h
      unfold collectStylesToPrepend
      exact addGroupStyles_mem_set _ _ _
        (addStyleIfNew_mem_set _ _ _ (addStyleIfNew_self_mem_set _ _ h))
    · intro h
      unfold collectStylesToPrepend
      exact addGroupStyles_mem_set _ _ _ (addStyleIfNew_self_mem_set _ _ h)
    · exact collectScriptElements_all_mem _ _
mutual

theorem mdNodeBEq_refl : ∀ a : MdNode, mdNodeBEq a a = true
  | .code c => by simp [mdNodeBEq]
  | .html v => by simp [mdNodeBEq]
  | .parentNode k cs => by simp [mdNodeBEq, mdNodeListBEq_refl cs]
  | .leaf k v => by simp [mdNodeBEq]

theorem mdNodeListBEq_refl : ∀ l : List MdNode, mdNodeListBEq l l = true
  | [] => rfl
  | a :: rest => by simp [mdNodeListBEq, mdNodeBEq_refl a, mdNodeListBEq_refl rest]

end

mutual

theorem mdNodeBEq_eq : ∀ a b : MdNode, mdNodeBEq a b = true → a = b
  | .code c1, .code c2, h => by
      simp only [mdNodeBEq, beq_iff_eq] at h
      rw [h]
  | .code _, .html _, h => by simp [mdNodeBEq] at h
  | .code _, .parentNode _ _, h => by simp [mdNodeBEq] at h
  | .code _, .leaf _ _, h => by simp [mdNodeBEq] at h
  | .html _, .code _, h => by simp [mdNodeBEq] at h
  | .html v1, .html v2, h => by
      simp only [mdNodeBEq, beq_iff_eq] at h
      rw [h]
  | .html _, .parentNode _ _, h => by simp [mdNodeBEq] at h
  | .html _, .leaf _ _, h => by simp [mdNodeBEq] at h
  | .parentNode _ _, .code _, h => by simp [mdNodeBEq] at h
  | .parentNode _ _, .html _, h => by simp [mdNodeBEq] at h
  | .parentNode k1 cs1, .parentNode k2 cs2, h => by
      simp only [mdNodeBEq, Bool.and_eq_true, beq_iff_eq] at h
      rw [h.1, mdNodeListBEq_eq cs1 cs2 h.2]
  | .parentNode _ _, .leaf _ _, h => by simp [mdNodeBEq] at h
  | .leaf _ _, .code _, h => by simp [mdNodeBEq] at h
  | .leaf _ _, .html _, h => by simp [mdNodeBEq] at h
  | .leaf _ _, .parentNode _ _, h => by simp [mdNodeBEq] at h
  | .leaf k1 v1, .leaf k2 v2, h => by
      simp only [mdNodeBEq, Bool.and_eq_true, beq_iff_eq] at h
      rw [h.1, h.2]

theorem mdNodeListBEq_eq : ∀ l1 l2 : List MdNode, mdNodeListBEq l1 l2 = true → l1 = l2
  | [], [], _ => rfl
  | [], _ :: _, h => by simp [mdNodeListBEq] at h
  | _ :: _, [], h => by simp [mdNodeListBEq] at h
  | a :: r1, b :: r2, h => by
      simp only [mdNodeListBEq, Bool.and_eq_true] at h
      rw [mdNodeBEq_eq a b h.1, mdNodeListBEq_eq r1 r2 h.2]

end

theorem mdNode_beq_iff (a b : MdNode) : (a == b) = true ↔ a = b :=
  ⟨mdNodeBEq_eq a b, fun h => h ▸ mdNodeBEq_refl a⟩
theorem childrenAt_code (c : Code) (w : List Nat) : childrenAt (.code c) w = none := by
  cases w <;> rfl

theorem childrenAt_html (v : String) (w : List Nat) : childrenAt (.html v) w = none := by
  cases w <;> rfl

theorem childrenAt_leaf (k v : String) (w : List Nat) : childrenAt (.leaf k v) w = none := by
  cases w <;> rfl

theorem childrenAt_parent_nil (k : String) (cs : List MdNode) :
    childrenAt (.parentNode k cs) [] = some cs := rfl

theorem childrenAt_parent_cons (k : String) (cs : List MdNode) (b : Nat) (q : List Nat) :
    childrenAt (.parentNode k cs) (b :: q)
      = match cs[b]? with
        | some c => childrenAt c q
        | none => none := rfl

theorem childrenAt_isParent (t : MdNode) (q : List Nat) (cs : List MdNode)
    (h : childrenAt t q = some cs) : ∃ k cs0, t = .parentNode k cs0 := by
  cases t with
  | parentNode k cs0 => exact ⟨k, cs0, rfl⟩
  | code c => rw [childrenAt_code] at h; cases h
  | html v => rw [childrenAt_html] at h; cases h
  | leaf k v => rw [childrenAt_leaf] at h; cases h

theorem setChildAt_parent_nil (k : String) (cs : List MdNode) (i : Nat) (v : MdNode) :
    setChildAt (.parentNode k cs) [] i v = .parentNode k (cs.set i v) := rfl

theorem setChildAt_parent_cons (k : String) (cs : List MdNode) (a : Nat) (p : List Nat)
    (i : Nat) (v : MdNode) :
    setChildAt (.parentNode k cs) (a :: p) i v
      = match cs[a]? with
        | some c => .parentNode k (cs.set a (setChildAt c p i v))
        | none => .parentNode k cs := rfl

theorem setChildAt_isParent (k : String) (cs : List MdNode) (p : List Nat) (i : Nat)
    (v : MdNode) : ∃ cs', setChildAt (.parentNode k cs) p i v = .parentNode k cs' := by
  cases p with
  | nil => exact ⟨cs.set i v, rfl⟩
  | cons a p' =>
      rw [setChildAt_parent_cons]
      cases cs[a]? with
      | some c => exact ⟨cs.set a (setChildAt c p' i v), rfl⟩
      | none => exact ⟨cs, rfl⟩

theorem entryAt_parent_nil (k : String) (cs : List MdNode) (j : Nat) (x : MdNode) :
    entryAt (.parentNode k cs) [] j x ↔ cs[j]? = some x := by
  unfold entryAt
  simp [childrenAt_parent_nil]

theorem entryAt_parent_cons (k : String) (cs : List MdNode) (b : Nat) (q : List Nat)
    (j : Nat) (x : MdNode) :
    entryAt (.parentNode k cs) (b :: q) j x
      ↔ ∃ cb, cs[b]? = some cb ∧ entryAt cb q j x := by
  unfold entryAt
  rw [childrenAt_parent_cons]
  cases hb : cs[b]? with
  | some cb => simp
  | none => simp

theorem entryAt_no_children (t : MdNode) (q : List Nat) (j : Nat) (x : MdNode)
    (h : ∀ w, childrenAt t w = none) : ¬ entryAt t q j x := by
  rintro ⟨csq, hcs, _⟩
  rw [h q] at hcs
  cases hcs
theorem entryAt_setChildAt (p : List Nat) :
    ∀ (t : MdNode) (cs : List MdNode) (i : Nat) (old v : MdNode),
    childrenAt t p = some cs → cs[i]? = some old →
    (∀ w, childrenAt old w = none) → (∀ w, childrenAt v w = none) →
    (∀ q, (childrenAt (setChildAt t p i v) q).isSome = (childrenAt t q).isSome) ∧
    (∀ q csq csq', childrenAt t q = some csq → childrenAt (setChildAt t p i v) q = some csq' →
      csq'.length = csq.length) ∧
    (∀ q j x, (∀ w, childrenAt x w = none) →
      (entryAt (setChildAt t p i v) q j x ↔
        ((entryAt t q j x ∧ ¬(q = p ∧ j = i)) ∨ (q = p ∧ j = i ∧ x = v)))) := by
  induction p with
  | nil =>
      intro t cs i old v hp hi hold hv
      obtain ⟨k, cs0, rfl⟩ := childrenAt_isParent t [] cs hp
      rw [childrenAt_parent_nil] at hp
      obtain rfl := Option.some.inj hp
      have hilen : i < cs0.length := (List.getElem?_eq_some.mp hi).1
      rw [setChildAt_parent_nil]
      refine ⟨?_, ?_, ?_⟩
      · intro q
        cases q with
        | nil => rfl
        | cons b q' =>
            rw [childrenAt_parent_cons, childrenAt_parent_cons]
            by_cases hb : b = i
            · subst hb
              rw [List.getElem?_set_eq hilen, hi]
              simp only [hv q', hold q']
            · rw [List.getElem?_set_ne (fun h => hb h.symm)]
      · intro q csq csq' hq hq'
        cases q with
        | nil =>
            rw [childrenAt_parent_nil] at hq hq'
            obtain rfl := Option.some.inj hq
            obtain rfl := Option.some.inj hq'
            exact List.length_set ..
        | cons b q' =>
            rw [childrenAt_parent_cons] at hq hq'
            by_cases hb : b = i
            · subst hb
              rw [hi] at hq
              simp only [hold q'] at hq
              cases hq
            · rw [List.getElem?_set_ne (fun h => hb h.symm)] at hq'
              cases hcb : cs0[b]? with
              | some cb =>
                  rw [hcb] at hq hq'
                  change childrenAt cb q' = some csq at hq
                  change childrenAt cb q' = some csq' at hq'
                  rw [hq] at hq'
                  obtain rfl := Option.some.inj hq'
                  rfl
              | none =>
                  rw [hcb] at hq
                  cases hq
      · intro q j x hx
        cases q with
        | nil =>
            rw [entryAt_parent_nil, entryAt_parent_nil]
            by_cases hj : j = i
            · subst hj
              rw [List.getElem?_set_eq hilen, hi]
              constructor
              · intro h
                exact Or.inr ⟨rfl, rfl, (Option.some.inj h).symm⟩
              · rintro (⟨_, hne⟩ | ⟨_, _, rfl⟩)
                · exact absurd ⟨rfl, rfl⟩ hne
                · rfl
            · rw [List.getElem?_set_ne (fun h => hj h.symm)]
              constructor
              · intro h
                exact Or.inl ⟨h, fun hc => hj hc.2⟩
              · rintro (⟨h, _⟩ | ⟨_, hji, _⟩)
                · exact h
                · exact absurd hji hj
        | cons b q' =>
            rw [entryAt_parent_cons, entryAt_parent_cons]
            by_cases hb : b = i
            · subst hb
              rw [List.getElem?_set_eq hilen, hi]
              constructor
              · rintro ⟨cb, hcb, hecb⟩
                obtain rfl := Option.some.inj hcb
                exact absurd hecb (entryAt_no_children _ _ _ _ hv)
              · rintro (⟨⟨cb, hcb, hecb⟩, _⟩ | ⟨hqq, _, _⟩)
                · obtain rfl := Option.some.inj hcb
                  exact absurd hecb (entryAt_no_children _ _ _ _ hold)
                · simp at hqq
            · rw [List.getElem?_set_ne (fun h => hb h.symm)]
              constructor
              · intro h
                refine Or.inl ⟨h, ?_⟩
                rintro ⟨hqq, _⟩
                simp at hqq
              · rintro (⟨h, _⟩ | ⟨hqq, _, _⟩)
                · exact h
                · simp at hqq
  | cons a p' ih =>
      intro t cs i old v hp hi hold hv
      obtain ⟨k, cs0, rfl⟩ := childrenAt_isParent t (a :: p') cs hp
      rw [childrenAt_parent_cons] at hp
      cases hca : cs0[a]? with
      | none =>
          rw [hca] at hp
          cases hp
      | some c0 =>
          rw [hca] at hp
          have halen : a < cs0.length := (List.getElem?_eq_some.mp hca).1
          obtain ⟨ihA, ihB, ihC⟩ := ih c0 cs i old v hp hi hold hv
          have hc0parent : ∃ k' gs, c0 = .parentNode k' gs := by
            cases p' with
            | nil => exact childrenAt_isParent c0 [] cs hp
            | cons y ys => exact childrenAt_isParent c0 (y :: ys) cs hp
          have hset : setChildAt (.parentNode k cs0) (a :: p') i v
              = .parentNode k (cs0.set a (setChildAt c0 p' i v)) := by
            rw [setChildAt_parent_cons, hca]
          rw [hset]
          refine ⟨?_, ?_, ?_⟩
          · intro q
            cases q with
            | nil => rfl
            | cons b q' =>
                rw [childrenAt_parent_cons, childrenAt_parent_cons]
                by_cases hb : b = a
                · subst hb
                  rw [List.getElem?_set_eq halen, hca]
                  exact ihA q'
                · rw [List.getElem?_set_ne (fun h => hb h.symm)]
          · intro q csq csq' hq hq'
            cases q with
            | nil =>
                rw [childrenAt_parent_nil] at hq hq'
                obtain rfl := Option.some.inj hq
                obtain rfl := Option.some.inj hq'
                exact List.length_set ..
            | cons b q' =>
                rw [childrenAt_parent_cons] at hq hq'
                by_cases hb : b = a
                · subst hb
                  rw [hca] at hq
                  rw [List.getElem?_set_eq halen] at hq'
                  exact ihB q' csq csq' hq hq'
                · rw [List.getElem?_set_ne (fun h => hb h.symm)] at hq'
                  cases hcb : cs0[b]? with
                  | some cb =>
                      rw [hcb] at hq hq'
                      change childrenAt cb q' = some csq at hq
                      change childrenAt cb q' = some csq' at hq'
                      rw [hq] at hq'
                      obtain rfl := Option.some.inj hq'
                      rfl
                  | none =>
                      rw [hcb] at hq
                      cases hq
          · intro q j x hx
            cases q with
            | nil =>
                rw [entryAt_parent_nil, entryAt_parent_nil]
                by_cases hj : j = a
                · subst hj
                  rw [List.getElem?_set_eq halen, hca]
                  constructor
                  · intro h
                    exfalso
                    obtain ⟨k', gs, hc0⟩ := hc0parent
                    obtain ⟨gs', hgs'⟩ := setChildAt_isParent k' gs p' i v
                    rw [hc0] at h
                    rw [hgs'] at h
                    obtain rfl := Option.some.inj h
                    have hxw := hx []
                    rw [childrenAt_parent_nil] at hxw
                    cases hxw
                  · rintro (⟨h, _⟩ | ⟨hqq, _, _⟩)
                    · exfalso
                      obtain ⟨k', gs, hc0⟩ := hc0parent
                      rw [hc0] at h
                      obtain rfl := Option.some.inj h
                      have hxw := hx []
                      rw [childrenAt_parent_nil] at hxw
                      cases hxw
                    · simp at hqq
                · rw [List.getElem?_set_ne (fun h => hj h.symm)]
                  constructor
                  · intro h
                    refine Or.inl ⟨h, ?_⟩
                    rintro ⟨hqq, _⟩
                    simp at hqq
                  · rintro (⟨h, _⟩ | ⟨hqq, _, _⟩)
                    · exact h
                    · simp at hqq
            | cons b q' =>
                rw [entryAt_parent_cons, entryAt_parent_cons]
                by_cases hb : b = a
                · subst hb
                  rw [List.getElem?_set_eq halen, hca]
                  constructor
                  · rintro ⟨cb, hcb, hecb⟩
                    obtain rfl := Option.some.inj hcb
                    rcases (ihC q' j x hx).mp hecb with ⟨he, hne⟩ | ⟨hq', hj, hxv⟩
                    · refine Or.inl ⟨⟨_, rfl, he⟩, ?_⟩
                      rintro ⟨hqq, hji⟩
                      exact hne ⟨by simpa using hqq, hji⟩
                    · exact Or.inr ⟨by rw [hq'], hj, hxv⟩
                  · rintro (⟨⟨cb, hcb, hecb⟩, hne⟩ | ⟨hqq, hj, hxv⟩)
                    · obtain rfl := Option.some.inj hcb
                      refine ⟨_, rfl, (ihC q' j x hx).mpr (Or.inl ⟨hecb, ?_⟩)⟩
                      rintro ⟨hqq, hji⟩
                      exact hne ⟨by rw [hqq], hji⟩
                    · have hq' : q' = p' := by simpa using hqq
                      exact ⟨_, rfl, (ihC q' j x hx).mpr (Or.inr ⟨hq', hj, hxv⟩)⟩
                · rw [List.getElem?_set_ne (fun h => hb h.symm)]
                  constructor
                  · intro h
                    refine Or.inl ⟨h, ?_⟩
                    rintro ⟨hq, _⟩
                    simp [hb] at hq
                  · rintro (⟨h, _⟩ | ⟨hq, _, _⟩)
                    · exact h
                    · simp [hb] at hq
theorem findIdx?_go_first {α : Type} (pred : α → Bool) (l : List α) :
    ∀ (start i : Nat) (x : α), l[i]? = some x → pred x = true →
    (∀ m, m < i → ∀ y, l[m]? = some y → pred y = false) →
    List.findIdx? pred l start = some (start + i) := by
  induction l with
  | nil =>
      intro start i x hx _ _
      simp at hx
  | cons a rest ih =>
      intro start i x hx hpx hbef
      cases i with
      | zero =>
          simp only [List.getElem?_cons_zero] at hx
          obtain rfl := Option.some.inj hx
          rw [List.findIdx?_cons, if_pos hpx]
          simp
      | succ i' =>
          have ha : pred a = false := hbef 0 (Nat.succ_pos _) a (by simp)
          rw [List.findIdx?_cons, if_neg (by simp [ha])]
          rw [ih (start + 1) i' x (by simpa using hx) hpx
            (fun m hm y hy => hbef (m + 1) (Nat.succ_lt_succ hm) y (by simpa using hy))]
          congr 1
          omega

theorem findIdx?_first {α : Type} (pred : α → Bool) (l : List α)
    (i : Nat) (x : α) (hx : l[i]? = some x) (hpx : pred x = true)
    (hbef : ∀ m, m < i → ∀ y, l[m]? = some y → pred y = false) :
    l.findIdx? pred = some i := by
  have := findIdx?_go_first pred l 0 i x hx hpx hbef
  simpa using this

theorem jsSplice_set (cs : List MdNode) (i : Nat) (x : MdNode) (hi : i < cs.length) :
    jsSplice cs (i : Int) 1 [x] = cs.set i x := by
  simp only [jsSplice]
  have h0 : ¬ ((i : Int) < 0) := by
    simp
  rw [if_neg h0]
  have hmin : min (i : Int) (cs.length : Int) = (i : Int) := by
    apply min_eq_left
    exact_mod_cast Nat.le_of_lt hi
  rw [hmin]
  have htn : ((i : Int)).toNat = i := Int.toNat_natCast i
  rw [htn, List.set_eq_take_cons_drop x hi, List.append_assoc]
  rfl

theorem jsIndexOf_spec (cs : List MdNode) (c : Code) (i : Nat)
    (hi : cs[i]? = some (.code c))
    (hbef : ∀ m, m < i → ∀ y, cs[m]? = some y → (y == MdNode.code c) = false) :
    jsIndexOf cs (.code c) = (i : Int) := by
  unfold jsIndexOf
  have h := findIdx?_first (fun c' => c' == MdNode.code c) cs i (.code c) hi
    (mdNodeBEq_refl _) hbef
  rw [h]

theorem updateChildrenAt_congr (p : List Nat) :
    ∀ (t : MdNode) (f g : List MdNode → List MdNode) (cs : List MdNode),
    childrenAt t p = some cs → f cs = g cs →
    updateChildrenAt t p f = updateChildrenAt t p g := by
  induction p with
  | nil =>
      intro t f g cs hp hfg
      obtain ⟨k, cs0, rfl⟩ := childrenAt_isParent t [] cs hp
      rw [childrenAt_parent_nil] at hp
      obtain rfl := Option.some.inj hp
      show MdNode.parentNode k (f cs0) = MdNode.parentNode k (g cs0)
      rw [hfg]
  | cons a p' ih =>
      intro t f g cs hp hfg
      obtain ⟨k, cs0, rfl⟩ := childrenAt_isParent t (a :: p') cs hp
      rw [childrenAt_parent_cons] at hp
      cases hca : cs0[a]? with
      | none =>
          rw [hca] at hp
          cases hp
      | some c0 =>
          rw [hca] at hp
          show (match cs0[a]? with
                | some c => MdNode.parentNode k (cs0.set a (updateChildrenAt c p' f))
                | none => MdNode.parentNode k cs0)
              = (match cs0[a]? with
                | some c => MdNode.parentNode k (cs0.set a (updateChildrenAt c p' g))
                | none => MdNode.parentNode k cs0)
          rw [hca]
          change childrenAt c0 p' = some cs at hp
          show MdNode.parentNode k (cs0.set a (updateChildrenAt c0 p' f))
              = MdNode.parentNode k (cs0.set a (updateChildrenAt c0 p' g))
          rw [ih c0 f g cs hp hfg]

theorem spliceHtmlAt_eq_setChildAt (t : MdNode) (q : List Nat) (cs : List MdNode)
    (j : Nat) (c : Code) (h : String)
    (hq : childrenAt t q = some cs) (hj : cs[j]? = some (.code c))
    (hbef : ∀ m, m < j → ∀ y, cs[m]? = some y → (y == MdNode.code c) = false) :
    spliceHtmlAt t q c h = setChildAt t q j (.html h) := by
  unfold spliceHtmlAt setChildAt
  apply updateChildrenAt_congr q t _ _ cs hq
  rw [jsIndexOf_spec cs c j hj hbef,
    jsSplice_set cs j (.html h) (List.getElem?_eq_some.mp hj).1]

/-- The invariant carried through the splice loop: every pending entry still
denotes a code node at its recorded position, every code node sitting in the
same parent at a smaller index than a pending entry is itself pending, and,
among pending entries sharing a parent, indices are strictly increasing. -/
def replaceInv (t : MdNode) (todo : List (List Nat × Nat × Code)) : Prop :=
  (∀ e ∈ todo, entryAt t e.1 e.2.1 (.code e.2.2)) ∧
  (∀ e ∈ todo, ∀ m cm, m < e.2.1 → entryAt t e.1 m (.code cm) → (e.1, m, cm) ∈ todo) ∧
  todo.Pairwise (fun a b => a.1 = b.1 → a.2.1 < b.2.1)

theorem replaceInv_step (t : MdNode) (q : List Nat) (j : Nat) (c : Code)
    (rest : List (List Nat × Nat × Code)) (h : String)
    (hinv : replaceInv t ((q, j, c) :: rest)) :
    spliceHtmlAt t q c h = setChildAt t q j (.html h) ∧
    replaceInv (setChildAt t q j (.html h)) rest := by
  obtain ⟨hsound, hcomp, hpw⟩ := hinv
  have hpwh : ∀ b ∈ rest, q = b.1 → j < b.2.1 := by
    have := (List.pairwise_cons.mp hpw).1
    intro b hb hqb
    exact this b hb hqb
  have hpwt : rest.Pairwise (fun a b => a.1 = b.1 → a.2.1 < b.2.1) :=
    (List.pairwise_cons.mp hpw).2
  obtain ⟨cs, hq, hj⟩ := hsound (q, j, c) (List.mem_cons_self _ _)
  have hbef : ∀ m, m < j → ∀ y, cs[m]? = some y → (y == MdNode.code c) = false := by
    intro m hm y hy
    cases hby : (y == MdNode.code c) with
    | false => rfl
    | true =>
        exfalso
        obtain rfl := mdNodeBEq_eq y (MdNode.code c) hby
        have hmem : (q, m, c) ∈ (q, j, c) :: rest :=
          hcomp (q, j, c) (List.mem_cons_self _ _) m c hm ⟨cs, hq, hy⟩
        cases List.mem_cons.mp hmem with
        | inl heq =>
            have hmj : m = j := by
              have := congrArg (fun e => e.2.1) heq
              simpa using this
            omega
        | inr hmemr =>
            have hjm : j < m := by
              have := hpwh (q, m, c) hmemr rfl
              simpa using this
            omega
  refine ⟨spliceHtmlAt_eq_setChildAt t q cs j c h hq hj hbef, ?_, ?_, hpwt⟩
  · -- soundness of the remaining entries on the updated tree
    obtain ⟨_, _, hiff⟩ := entryAt_setChildAt q t cs j (.code c) (.html h) hq hj
      (childrenAt_code c) (childrenAt_html h)
    intro e he
    refine (hiff e.1 e.2.1 (.code e.2.2) (childrenAt_code e.2.2)).mpr (Or.inl ⟨?_, ?_⟩)
    · exact hsound e (List.mem_cons_of_mem _ he)
    · rintro ⟨hq1, hq2⟩
      have := hpwh e he hq1.symm
      omega
  · -- completeness of the remaining entries on the updated tree
    obtain ⟨_, _, hiff⟩ := entryAt_setChildAt q t cs j (.code c) (.html h) hq hj
      (childrenAt_code c) (childrenAt_html h)
    intro e he m cm hm hent
    cases (hiff e.1 m (.code cm) (childrenAt_code cm)).mp hent with
    | inl hl =>
        have hmem : (e.1, m, cm) ∈ (q, j, c) :: rest :=
          hcomp e (List.mem_cons_of_mem _ he) m cm hm hl.1
        cases List.mem_cons.mp hmem with
        | inl heq =>
            exfalso
            apply hl.2
            refine ⟨congrArg Prod.fst heq, ?_⟩
            exact congrArg (fun x => x.2.1) heq
        | inr hmemr => exact hmemr
    | inr hr => cases hr.2.2

theorem drop_cons_head {α : Type} (full : List α) (i : Nat) (c0 : α) (rest : List α)
    (h : full.drop i = c0 :: rest) : full[i]? = some c0 := by
  have := List.getElem?_drop full i 0
  rw [h] at this
  simpa using this.symm

theorem drop_cons_tail {α : Type} (full : List α) (i : Nat) (c0 : α) (rest : List α)
    (h : full.drop i = c0 :: rest) : full.drop (i + 1) = rest := by
  have : List.drop 1 (List.drop i full) = List.drop (i + 1) full := List.drop_drop 1 i full
  rw [← this, h]
  rfl

theorem drop_nil_getElem {α : Type} (full : List α) (i j : Nat)
    (h : full.drop i = []) (hij : i ≤ j) : full[j]? = none := by
  apply List.getElem?_eq_none
  have := List.drop_eq_nil_iff.mp h
  omega

mutual

theorem collectCode_eq_strip : ∀ (t : MdNode) (p : List Nat),
    collectCode t p = (collectCodeIdx t p).map (fun e => (e.1, e.2.2))
  | .code _, _ => rfl
  | .html _, _ => rfl
  | .leaf _ _, _ => rfl
  | .parentNode k children, p => by
      simp only [collectCode, collectCodeIdx]
      exact collectCodeChildren_eq_strip children p 0

theorem collectCodeChildren_eq_strip : ∀ (cs : List MdNode) (p : List Nat) (i : Nat),
    collectCodeChildren cs p i = (collectCodeIdxChildren cs p i).map (fun e => (e.1, e.2.2))
  | [], _, _ => rfl
  | .code cd :: rest, p, i => by
      simp only [collectCodeChildren, collectCodeIdxChildren, List.map_append]
      rw [collectCodeChildren_eq_strip rest p (i + 1)]
      rfl
  | .html v :: rest, p, i => by
      simp only [collectCodeChildren, collectCodeIdxChildren, List.map_append]
      rw [collectCodeChildren_eq_strip rest p (i + 1)]
      rfl
  | .leaf k v :: rest, p, i => by
      simp only [collectCodeChildren, collectCodeIdxChildren, List.map_append]
      rw [collectCodeChildren_eq_strip rest p (i + 1)]
      rfl
  | .parentNode k children :: rest, p, i => by
      simp only [collectCodeChildren, collectCodeIdxChildren, List.map_append]
      rw [collectCodeChildren_eq_strip rest p (i + 1),
        collectCode_eq_strip (.parentNode k children) (p ++ [i])]

end

mutual

theorem collectCodeIdx_sound : ∀ (t : MdNode) (p q : List Nat) (j : Nat) (c : Code),
    (q, j, c) ∈ collectCodeIdx t p → ∃ q', q = p ++ q' ∧ entryAt t q' j (.code c)
  | .code _, p, q, j, c => by
      intro h
      simp [collectCodeIdx] at h
  | .html _, p, q, j, c => by
      intro h
      simp [collectCodeIdx] at h
  | .leaf _ _, p, q, j, c => by
      intro h
      simp [collectCodeIdx] at h
  | .parentNode k children, p, q, j, c => by
      intro h
      simp only [collectCodeIdx] at h
      cases collectCodeIdxChildren_sound children children 0 p q j c rfl h with
      | inl hl =>
          refine ⟨[], by simp [hl.1], ?_⟩
          rw [entryAt_parent_nil]
          exact hl.2.2
      | inr hr =>
          obtain ⟨m, child, q', _, hm, hq, hent⟩ := hr
          exact ⟨m :: q', hq, (entryAt_parent_cons k children m q' j _).mpr ⟨child, hm, hent⟩⟩

theorem collectCodeIdxChildren_sound : ∀ (cs full : List MdNode) (i : Nat)
    (p q : List Nat) (j : Nat) (c : Code),
    full.drop i = cs → (q, j, c) ∈ collectCodeIdxChildren cs p i →
    (q = p ∧ i ≤ j ∧ full[j]? = some (.code c)) ∨
    (∃ m child q', i ≤ m ∧ full[m]? = some child ∧ q = p ++ m :: q' ∧
      entryAt child q' j (.code c))
  | [], full, i, p, q, j, c => by
      intro _ h
      simp [collectCodeIdxChildren] at h
  | .code cd :: rest, full, i, p, q, j, c => by
      intro hdrop h
      simp only [collectCodeIdxChildren, List.mem_append] at h
      cases h with
      | inl hh =>
          simp only [List.mem_singleton, Prod.mk.injEq] at hh
          obtain ⟨h1, h2, h3⟩ := hh
          refine Or.inl ⟨h1, by omega, ?_⟩
          rw [h2, h3]
          exact drop_cons_head full i _ rest hdrop
      | inr ht =>
          cases collectCodeIdxChildren_sound rest full (i + 1) p q j c
              (drop_cons_tail full i _ rest hdrop) ht with
          | inl hl => exact Or.inl ⟨hl.1, by omega, hl.2.2⟩
          | inr hr =>
              obtain ⟨m, child, q', him, hm, hq, hent⟩ := hr
              exact Or.inr ⟨m, child, q', by omega, hm, hq, hent⟩
  | .html v :: rest, full, i, p, q, j, c => by
      intro hdrop h
      simp only [collectCodeIdxChildren, List.mem_append] at h
      cases h with
      | inl hh =>
          simp [collectCodeIdx] at hh
      | inr ht =>
          cases collectCodeIdxChildren_sound rest full (i + 1) p q j c
              (drop_cons_tail full i _ rest hdrop) ht with
          | inl hl => exact Or.inl ⟨hl.1, by omega, hl.2.2⟩
          | inr hr =>
              obtain ⟨m, child, q', him, hm, hq, hent⟩ := hr
              exact Or.inr ⟨m, child, q', by omega, hm, hq, hent⟩
  | .leaf k v :: rest, full, i, p, q, j, c => by
      intro hdrop h
      simp only [collectCodeIdxChildren, List.mem_append] at h
      cases h with
      | inl hh =>
          simp [collectCodeIdx] at hh
      | inr ht =>
          cases collectCodeIdxChildren_sound rest full (i + 1) p q j c
              (drop_cons_tail full i _ rest hdrop) ht with
          | inl hl => exact Or.inl ⟨hl.1, by omega, hl.2.2⟩
          | inr hr =>
              obtain ⟨m, child, q', him, hm, hq, hent⟩ := hr
              exact Or.inr ⟨m, child, q', by omega, hm, hq, hent⟩
  | .parentNode k children :: rest, full, i, p, q, j, c => by
      intro hdrop h
      simp only [collectCodeIdxChildren, List.mem_append] at h
      cases h with
      | inl hh =>
          obtain ⟨q', hq, hent⟩ := collectCodeIdx_sound (.parentNode k children) (p ++ [i]) q j c hh
          refine Or.inr ⟨i, .parentNode k children, q', le_refl _,
            drop_cons_head full i _ rest hdrop, ?_, hent⟩
          rw [hq, List.append_assoc]
          rfl
      | inr ht =>
          cases collectCodeIdxChildren_sound rest full (i + 1) p q j c
              (drop_cons_tail full i _ rest hdrop) ht with
          | inl hl => exact Or.inl ⟨hl.1, by omega, hl.2.2⟩
          | inr hr =>
              obtain ⟨m, child, q', him, hm, hq, hent⟩ := hr
              exact Or.inr ⟨m, child, q', by omega, hm, hq, hent⟩

end

theorem mem_collectCodeIdxChildren_cons (c0 : MdNode) (rest : List MdNode) (p : List Nat)
    (i : Nat) (e : List Nat × Nat × Code) :
    e ∈ collectCodeIdxChildren (c0 :: rest) p i ↔
      (e ∈ (match c0 with
            | .code cd => [(p, i, cd)]
            | other => collectCodeIdx other (p ++ [i]))
        ∨ e ∈ collectCodeIdxChildren rest p (i + 1)) := by
  cases c0 with
  | code cd =>
      simp only [collectCodeIdxChildren]
      exact List.mem_append
  | html v =>
      simp only [collectCodeIdxChildren]
      exact List.mem_append
  | leaf k v =>
      simp only [collectCodeIdxChildren]
      exact List.mem_append
  | parentNode k ch =>
      simp only [collectCodeIdxChildren]
      exact List.mem_append

theorem collectCodeIdxChildren_complete_here (cs : List MdNode) :
    ∀ (full : List MdNode) (i : Nat) (p : List Nat) (j : Nat) (c : Code),
    full.drop i = cs → i ≤ j → full[j]? = some (.code c) →
    (p, j, c) ∈ collectCodeIdxChildren cs p i := by
  induction cs with
  | nil =>
      intro full i p j c hdrop hij hj
      rw [drop_nil_getElem full i j hdrop hij] at hj
      cases hj
  | cons c0 rest ih =>
      intro full i p j c hdrop hij hj
      by_cases hij' : i = j
      · subst hij'
        have hc0 : c0 = .code c := by
          have h1 := drop_cons_head full i c0 rest hdrop
          rw [hj] at h1
          exact (Option.some.inj h1).symm
        subst hc0
        rw [mem_collectCodeIdxChildren_cons]
        exact Or.inl (by simp)
      · have := ih full (i + 1) p j c
          (drop_cons_tail full i c0 rest hdrop) (by omega) hj
        rw [mem_collectCodeIdxChildren_cons]
        exact Or.inr this

mutual

theorem collectCodeIdx_complete : ∀ (t : MdNode) (p q' : List Nat) (j : Nat) (c : Code),
    entryAt t q' j (.code c) → (p ++ q', j, c) ∈ collectCodeIdx t p
  | .code cd, p, q', j, c => by
      intro h
      exact absurd h (entryAt_no_children _ _ _ _ (childrenAt_code cd))
  | .html v, p, q', j, c => by
      intro h
      exact absurd h (entryAt_no_children _ _ _ _ (childrenAt_html v))
  | .leaf k v, p, q', j, c => by
      intro h
      exact absurd h (entryAt_no_children _ _ _ _ (childrenAt_leaf k v))
  | .parentNode k children, p, q', j, c => by
      intro h
      cases q' with
      | nil =>
          rw [entryAt_parent_nil] at h
          simp only [collectCodeIdx, List.append_nil]
          exact collectCodeIdxChildren_complete_here children children 0 p j c rfl
            (Nat.zero_le j) h
      | cons m q'' =>
          rw [entryAt_parent_cons] at h
          obtain ⟨child, hm, hent⟩ := h
          simp only [collectCodeIdx]
          exact collectCodeIdxChildren_complete_deep children children 0 p m child q'' j c
            rfl (Nat.zero_le m) hm hent

theorem collectCodeIdxChildren_complete_deep : ∀ (cs full : List MdNode) (i : Nat)
    (p : List Nat) (m : Nat) (child : MdNode) (q' : List Nat) (j : Nat) (c : Code),
    full.drop i = cs → i ≤ m → full[m]? = some child → entryAt child q' j (.code c) →
    (p ++ m :: q', j, c) ∈ collectCodeIdxChildren cs p i
  | [], full, i, p, m, child, q', j, c => by
      intro hdrop him hm _
      rw [drop_nil_getElem full i m hdrop him] at hm
      cases hm
  | .code cd :: rest, full, i, p, m, child, q', j, c => by
      intro hdrop him hm hent
      by_cases him' : i = m
      · subst him'
        have hc0 : child = .code cd := by
          have h1 := drop_cons_head full i (.code cd) rest hdrop
          rw [hm] at h1
          exact Option.some.inj h1
        rw [hc0] at hent
        exact absurd hent (entryAt_no_children _ _ _ _ (childrenAt_code cd))
      · rw [mem_collectCodeIdxChildren_cons]
        exact Or.inr (collectCodeIdxChildren_complete_deep rest full (i + 1) p m child q' j c
          (drop_cons_tail full i (.code cd) rest hdrop) (by omega) hm hent)
  | .html v :: rest, full, i, p, m, child, q', j, c => by
      intro hdrop him hm hent
      by_cases him' : i = m
      · subst him'
        have hc0 : child = .html v := by
          have h1 := drop_cons_head full i (.html v) rest hdrop
          rw [hm] at h1
          exact Option.some.inj h1
        rw [hc0] at hent
        rw [mem_collectCodeIdxChildren_cons]
        refine Or.inl ?_
        have := collectCodeIdx_complete (.html v) (p ++ [i]) q' j c hent
        rw [List.append_assoc] at this
        exact this
      · rw [mem_collectCodeIdxChildren_cons]
        exact Or.inr (collectCodeIdxChildren_complete_deep rest full (i + 1) p m child q' j c
          (drop_cons_tail full i (.html v) rest hdrop) (by omega) hm hent)
  | .leaf kk v :: rest, full, i, p, m, child, q', j, c => by
      intro hdrop him hm hent
      by_cases him' : i = m
      · subst him'
        have hc0 : child = .leaf kk v := by
          have h1 := drop_cons_head full i (.leaf kk v) rest hdrop
          rw [hm] at h1
          exact Option.some.inj h1
        rw [hc0] at hent
        rw [mem_collectCodeIdxChildren_cons]
        refine Or.inl ?_
        have := collectCodeIdx_complete (.leaf kk v) (p ++ [i]) q' j c hent
        rw [List.append_assoc] at this
        exact this
      · rw [mem_collectCodeIdxChildren_cons]
        exact Or.inr (collectCodeIdxChildren_complete_deep rest full (i + 1) p m child q' j c
          (drop_cons_tail full i (.leaf kk v) rest hdrop) (by omega) hm hent)
  | .parentNode kk ch :: rest, full, i, p, m, child, q', j, c => by
      intro hdrop him hm hent
      by_cases him' : i = m
      · subst him'
        have hc0 : child = .parentNode kk ch := by
          have h1 := drop_cons_head full i (.parentNode kk ch) rest hdrop
          rw [hm] at h1
          exact Option.some.inj h1
        rw [hc0] at hent
        rw [mem_collectCodeIdxChildren_cons]
        refine Or.inl ?_
        have := collectCodeIdx_complete (.parentNode kk ch) (p ++ [i]) q' j c hent
        rw [List.append_assoc] at this
        exact this
      · rw [mem_collectCodeIdxChildren_cons]
        exact Or.inr (collectCodeIdxChildren_complete_deep rest full (i + 1) p m child q' j c
          (drop_cons_tail full i (.parentNode kk ch) rest hdrop) (by omega) hm hent)

end

mutual

theorem collectCodeIdx_pairwise : ∀ (t : MdNode) (p : List Nat),
    (collectCodeIdx t p).Pairwise (fun a b => a.1 = b.1 → a.2.1 < b.2.1)
  | .code _, _ => by simp [collectCodeIdx]
  | .html _, _ => by simp [collectCodeIdx]
  | .leaf _ _, _ => by simp [collectCodeIdx]
  | .parentNode k children, p => by
      simp only [collectCodeIdx]
      exact collectCodeIdxChildren_pairwise children children 0 p rfl

theorem collectCodeIdxChildren_pairwise : ∀ (cs full : List MdNode) (i : Nat) (p : List Nat),
    full.drop i = cs →
    (collectCodeIdxChildren cs p i).Pairwise (fun a b => a.1 = b.1 → a.2.1 < b.2.1)
  | [], full, i, p => by
      intro _
      simp [collectCodeIdxChildren]
  | .code cd :: rest, full, i, p => by
      intro hdrop
      simp only [collectCodeIdxChildren]
      rw [List.pairwise_append]
      refine ⟨by simp, collectCodeIdxChildren_pairwise rest full (i + 1) p
        (drop_cons_tail full i (.code cd) rest hdrop), ?_⟩
      intro a ha b hb hab
      obtain ⟨bq, bj, bc⟩ := b
      simp only [List.mem_singleton] at ha
      subst ha
      cases collectCodeIdxChildren_sound rest full (i + 1) p bq bj bc
          (drop_cons_tail full i (.code cd) rest hdrop) hb with
      | inl hl =>
          have := hl.2.1
          simpa using by omega
      | inr hr =>
          obtain ⟨m, child, q', him, _, hbq, _⟩ := hr
          exfalso
          rw [hbq] at hab
          have := congrArg List.length hab
          simp [List.length_append] at this
  | .html v :: rest, full, i, p => by
      intro hdrop
      simp only [collectCodeIdxChildren]
      rw [List.pairwise_append]
      refine ⟨collectCodeIdx_pairwise (.html v) (p ++ [i]),
        collectCodeIdxChildren_pairwise rest full (i + 1) p
          (drop_cons_tail full i (.html v) rest hdrop), ?_⟩
      intro a ha b hb hab
      obtain ⟨aq, aj, ac⟩ := a
      obtain ⟨bq, bj, bc⟩ := b
      obtain ⟨qa, hqa, _⟩ := collectCodeIdx_sound (.html v) (p ++ [i]) aq aj ac ha
      exfalso
      cases collectCodeIdxChildren_sound rest full (i + 1) p bq bj bc
          (drop_cons_tail full i (.html v) rest hdrop) hb with
      | inl hl =>
          rw [hqa, hl.1] at hab
          have := congrArg List.length hab
          simp [List.length_append] at this
      | inr hr =>
          obtain ⟨m, child, q', him, _, hbq, _⟩ := hr
          rw [hqa, hbq, List.append_assoc] at hab
          have := List.append_cancel_left hab
          simp only [List.singleton_append, List.cons.injEq] at this
          omega
  | .leaf kk v :: rest, full, i, p => by
      intro hdrop
      simp only [collectCodeIdxChildren]
      rw [List.pairwise_append]
      refine ⟨collectCodeIdx_pairwise (.leaf kk v) (p ++ [i]),
        collectCodeIdxChildren_pairwise rest full (i + 1) p
          (drop_cons_tail full i (.leaf kk v) rest hdrop), ?_⟩
      intro a ha b hb hab
      obtain ⟨aq, aj, ac⟩ := a
      obtain ⟨bq, bj, bc⟩ := b
      obtain ⟨qa, hqa, _⟩ := collectCodeIdx_sound (.leaf kk v) (p ++ [i]) aq aj ac ha
      exfalso
      cases collectCodeIdxChildren_sound rest full (i + 1) p bq bj bc
          (drop_cons_tail full i (.leaf kk v) rest hdrop) hb with
      | inl hl =>
          rw [hqa, hl.1] at hab
          have := congrArg List.length hab
          simp [List.length_append] at this
      | inr hr =>
          obtain ⟨m, child, q', him, _, hbq, _⟩ := hr
          rw [hqa, hbq, List.append_assoc] at hab
          have := List.append_cancel_left hab
          simp only [List.singleton_append, List.cons.injEq] at this
          omega
  | .parentNode kk ch :: rest, full, i, p => by
      intro hdrop
      simp only [collectCodeIdxChildren]
      rw [List.pairwise_append]
      refine ⟨collectCodeIdx_pairwise (.parentNode kk ch) (p ++ [i]),
        collectCodeIdxChildren_pairwise rest full (i + 1) p
          (drop_cons_tail full i (.parentNode kk ch) rest hdrop), ?_⟩
      intro a ha b hb hab
      obtain ⟨aq, aj, ac⟩ := a
      obtain ⟨bq, bj, bc⟩ := b
      obtain ⟨qa, hqa, _⟩ := collectCodeIdx_sound (.parentNode kk ch) (p ++ [i]) aq aj ac ha
      exfalso
      cases collectCodeIdxChildren_sound rest full (i + 1) p bq bj bc
          (drop_cons_tail full i (.parentNode kk ch) rest hdrop) hb with
      | inl hl =>
          rw [hqa, hl.1] at hab
          have := congrArg List.length hab
          simp [List.length_append] at this
      | inr hr =>
          obtain ⟨m, child, q', him, _, hbq, _⟩ := hr
          rw [hqa, hbq, List.append_assoc] at hab
          have := List.append_cancel_left hab
          simp only [List.singleton_append, List.cons.injEq] at this
          omega

end

theorem replaceInv_collect (t : MdNode) : replaceInv t (collectCodeIdx t []) := by
  refine ⟨?_, ?_, collectCodeIdx_pairwise t []⟩
  · intro e he
    obtain ⟨eq1, ej, ec⟩ := e
    obtain ⟨q', hq, hent⟩ := collectCodeIdx_sound t [] eq1 ej ec he
    rw [List.nil_append] at hq
    show entryAt t eq1 ej (.code ec)
    rw [hq]
    exact hent
  · intro e he m cm _ hent
    obtain ⟨eq1, ej, ec⟩ := e
    exact collectCodeIdx_complete t [] eq1 m cm hent

theorem nodeAt_nil (t : MdNode) : nodeAt t [] = some t := rfl

theorem nodeAt_cons (t : MdNode) (m : Nat) (u : List Nat) :
    nodeAt t (m :: u) = match t with
      | .parentNode _ cs =>
          match cs[m]? with
          | some c => nodeAt c u
          | none => none
      | _ => none := by
  cases t <;> rfl

theorem nodeAt_parent_cons (k : String) (cs : List MdNode) (m : Nat) (u : List Nat) :
    nodeAt (.parentNode k cs) (m :: u) = match cs[m]? with
      | some c => nodeAt c u
      | none => none := rfl

theorem nodeAt_append (u : List Nat) : ∀ (t : MdNode) (w : List Nat),
    nodeAt t (u ++ w) = match nodeAt t u with
      | some y => nodeAt y w
      | none => none := by
  induction u with
  | nil =>
      intro t w
      rfl
  | cons a u' ih =>
      intro t w
      cases t with
      | parentNode k cs =>
          rw [List.cons_append, nodeAt_cons, nodeAt_cons]
          cases hca : cs[a]? with
          | some c =>
              simp only [hca]
              exact ih c w
          | none => simp [hca]
      | code c => rfl
      | html v => rfl
      | leaf k v => rfl

theorem entryAt_iff_nodeAt (q : List Nat) : ∀ (t : MdNode) (j : Nat) (x : MdNode),
    entryAt t q j x ↔ nodeAt t (q ++ [j]) = some x := by
  induction q with
  | nil =>
      intro t j x
      cases t with
      | parentNode k cs =>
          rw [entryAt_parent_nil, List.nil_append, nodeAt_cons]
          cases hj : cs[j]? with
          | some c => simp [hj, nodeAt_nil, eq_comm]
          | none => simp [hj]
      | code c =>
          rw [List.nil_append, nodeAt_cons]
          simp [entryAt_no_children _ _ _ _ (childrenAt_code c)]
      | html v =>
          rw [List.nil_append, nodeAt_cons]
          simp [entryAt_no_children _ _ _ _ (childrenAt_html v)]
      | leaf k v =>
          rw [List.nil_append, nodeAt_cons]
          simp [entryAt_no_children _ _ _ _ (childrenAt_leaf k v)]
  | cons b q' ih =>
      intro t j x
      cases t with
      | parentNode k cs =>
          rw [entryAt_parent_cons, List.cons_append, nodeAt_cons]
          cases hb : cs[b]? with
          | some cb => simp [hb, ih cb j x]
          | none => simp [hb]
      | code c =>
          rw [List.cons_append, nodeAt_cons]
          simp [entryAt_no_children _ _ _ _ (childrenAt_code c)]
      | html v =>
          rw [List.cons_append, nodeAt_cons]
          simp [entryAt_no_children _ _ _ _ (childrenAt_html v)]
      | leaf k v =>
          rw [List.cons_append, nodeAt_cons]
          simp [entryAt_no_children _ _ _ _ (childrenAt_leaf k v)]

theorem codeFreeList_get (cs : List MdNode) : ∀ (m : Nat) (ch : MdNode),
    codeFreeList cs = true → cs[m]? = some ch → codeFree ch = true := by
  induction cs with
  | nil =>
      intro m ch _ h
      simp at h
  | cons c0 rest ih =>
      intro m ch hcf hm
      simp only [codeFreeList, Bool.and_eq_true] at hcf
      cases m with
      | zero =>
          simp only [List.getElem?_cons_zero] at hm
          obtain rfl := Option.some.inj hm
          exact hcf.1
      | succ m' =>
          exact ih m' ch hcf.2 (by simpa using hm)

theorem codeFree_nodeAt (u : List Nat) : ∀ (x y : MdNode),
    codeFree x = true → nodeAt x u = some y → codeFree y = true := by
  induction u with
  | nil =>
      intro x y hcf h
      rw [nodeAt_nil] at h
      obtain rfl := Option.some.inj h
      exact hcf
  | cons m u' ih =>
      intro x y hcf h
      cases x with
      | parentNode k cs =>
          rw [nodeAt_parent_cons] at h
          cases hm : cs[m]? with
          | some ch =>
              rw [hm] at h
              refine ih ch y (codeFreeList_get cs m ch ?_ hm) h
              simpa [codeFree] using hcf
          | none =>
              rw [hm] at h
              cases h
      | code c => simp [nodeAt_cons] at h
      | html v => simp [nodeAt_cons] at h
      | leaf k v => simp [nodeAt_cons] at h

theorem nodeAt_setChildAt_off : ∀ (q0 : List Nat) (t : MdNode) (j0 : Nat) (v : MdNode)
    (u : List Nat), ¬ (q0 ++ [j0]) <+: u → ¬ u <+: (q0 ++ [j0]) →
    nodeAt (setChildAt t q0 j0 v) u = nodeAt t u := by
  intro q0
  induction q0 with
  | nil =>
      intro t j0 v u hnp hnp2
      cases t with
      | parentNode k cs =>
          rw [setChildAt_parent_nil]
          cases u with
          | nil => exact absurd ⟨[j0], rfl⟩ hnp2
          | cons m u' =>
              by_cases hm : m = j0
              · subst hm
                exact absurd ⟨u', rfl⟩ hnp
              · rw [nodeAt_parent_cons, nodeAt_parent_cons,
                  List.getElem?_set_ne (fun h => hm h.symm)]
      | code c => rfl
      | html vv => rfl
      | leaf k vv => rfl
  | cons a q0' ih =>
      intro t j0 v u hnp hnp2
      cases t with
      | parentNode k cs =>
          rw [setChildAt_parent_cons]
          cases hca : cs[a]? with
          | none => rfl
          | some ch =>
              cases u with
              | nil => exact absurd ⟨(a :: q0') ++ [j0], rfl⟩ hnp2
              | cons m u' =>
                  by_cases hma : m = a
                  · subst hma
                    have hb : m < cs.length := (List.getElem?_eq_some.mp hca).1
                    rw [nodeAt_parent_cons, nodeAt_parent_cons,
                      List.getElem?_set_eq hb, hca]
                    show nodeAt (setChildAt ch q0' j0 v) u' = nodeAt ch u'
                    exact ih ch j0 v u'
                      (fun h => hnp (List.cons_prefix_cons.mpr ⟨rfl, h⟩))
                      (fun h => hnp2 (List.cons_prefix_cons.mpr ⟨rfl, h⟩))
                  · rw [nodeAt_parent_cons, nodeAt_parent_cons,
                      List.getElem?_set_ne (fun h => hma h.symm)]
      | code c => rfl
      | html vv => rfl
      | leaf k vv => rfl

theorem applyReplacements_preserves_nodeAt :
    ∀ (l : List ((List Nat × Nat × Code) × String)) (t : MdNode) (u : List Nat) (x : MdNode),
    replaceInv t (l.map Prod.fst) → nodeAt t u = some x → codeFree x = true →
    nodeAt (applyReplacements t l) u = some x := by
  intro l
  induction l with
  | nil =>
      intro t u x _ h _
      simp only [applyReplacements]
      exact h
  | cons eh l' ih =>
      obtain ⟨⟨q0, j0, c0⟩, h0⟩ := eh
      intro t u x hinv hu hcf
      have hhead : entryAt t q0 j0 (.code c0) := hinv.1 (q0, j0, c0) (by simp)
      have hstep := replaceInv_step t q0 j0 c0 (l'.map Prod.fst) h0 (by simpa using hinv)
      have hr0 : nodeAt t (q0 ++ [j0]) = some (.code c0) :=
        (entryAt_iff_nodeAt q0 t j0 _).mp hhead
      have hnp : ¬ (q0 ++ [j0]) <+: u := by
        rintro ⟨w, rfl⟩
        rw [nodeAt_append, hr0] at hu
        change nodeAt (MdNode.code c0) w = some x at hu
        cases w with
        | nil =>
            rw [nodeAt_nil] at hu
            obtain rfl := Option.some.inj hu
            simp [codeFree] at hcf
        | cons a w' => simp [nodeAt_cons] at hu
      have hnp2 : ¬ u <+: (q0 ++ [j0]) := by
        rintro ⟨w, hw⟩
        rw [← hw, nodeAt_append, hu] at hr0
        change nodeAt x w = some (MdNode.code c0) at hr0
        have := codeFree_nodeAt w x (.code c0) hcf hr0
        simp [codeFree] at this
      simp only [applyReplacements]
      exact ih (setChildAt t q0 j0 (.html h0)) u x hstep.2
        (by rw [nodeAt_setChildAt_off q0 t j0 (.html h0) u hnp hnp2]; exact hu) hcf

theorem applyReplacements_entryAt_html :
    ∀ (l : List ((List Nat × Nat × Code) × String)) (t : MdNode),
    replaceInv t (l.map Prod.fst) →
    ∀ (k : Nat) (e : List Nat × Nat × Code) (h : String), l[k]? = some (e, h) →
    entryAt (applyReplacements t l) e.1 e.2.1 (.html h) := by
  intro l
  induction l with
  | nil =>
      intro t _ k e h hk
      simp at hk
  | cons eh l' ih =>
      obtain ⟨⟨q0, j0, c0⟩, h0⟩ := eh
      intro t hinv k e h hk
      have hstep := replaceInv_step t q0 j0 c0 (l'.map Prod.fst) h0 (by simpa using hinv)
      obtain ⟨cs, hq, hj⟩ := hinv.1 (q0, j0, c0) (by simp)
      obtain ⟨hpres, hlen2, hiff⟩ := entryAt_setChildAt q0 t cs j0 (.code c0) (.html h0) hq hj
        (childrenAt_code c0) (childrenAt_html h0)
      cases k with
      | zero =>
          simp only [List.getElem?_cons_zero] at hk
          have hk' := Option.some.inj hk
          injection hk' with hk1 hk2
          subst hk1
          subst hk2
          have hent1 : entryAt (setChildAt t q0 j0 (.html h0)) q0 j0 (.html h0) :=
            (hiff q0 j0 (.html h0) (childrenAt_html h0)).mpr (Or.inr ⟨rfl, rfl, rfl⟩)
          have hnode := applyReplacements_preserves_nodeAt l'
            (setChildAt t q0 j0 (.html h0)) (q0 ++ [j0]) (.html h0) hstep.2
            ((entryAt_iff_nodeAt q0 _ j0 _).mp hent1) (by simp [codeFree])
          simp only [applyReplacements]
          exact (entryAt_iff_nodeAt q0 _ j0 _).mpr hnode
      | succ k' =>
          simp only [List.getElem?_cons_succ] at hk
          simp only [applyReplacements]
          exact ih (setChildAt t q0 j0 (.html h0)) hstep.2 k' e h hk

/-- The synchronous prefix of one loop iteration of the transformer: build the
block input from the code node and current tree, run the construction hooks,
and render the block; returns the HTML string and the updated added-asset
sets. -/
def blockRender (opts : RemarkExpressiveCodeOptions) (renderer : RemarkExpressiveCodeRenderer)
    (filePath : Option String) (totalGroups : Nat) (code : Code) (groupIndex : Nat)
    (tree : MdNode) (addedStyles addedJsModules : List String) :
    String × List String × List String :=
  let normalizedCode :=
    if opts.tabWidth > 0 then expandTabs code.value opts.tabWidth else code.value
  let input0 : ExpressiveCodeBlockOptions :=
    { code := normalizedCode,
      language := code.lang.getD "",
      meta := code.meta.getD "",
      locale := none,
      parentDocument :=
        { sourceFilePath := filePath,
          documentRoot := tree,
          positionInDocument := { groupIndex := groupIndex, totalGroups := totalGroups } } }
  let input :=
    match opts.getBlockLocale with
    | some getLocale => { input0 with locale := getLocale input0 }
    | none => input0
  let codeBlock :=
    match opts.customCreateBlock with
    | some create => create input
    | none => ExpressiveCodeBlock.mk input
  renderBlockToHtml renderer codeBlock addedStyles addedJsModules

theorem runBlocks_cons (opts : RemarkExpressiveCodeOptions)
    (renderer : RemarkExpressiveCodeRenderer) (filePath : Option String) (totalGroups : Nat)
    (parentPath : List Nat) (code : Code) (rest : List (List Nat × Code)) (groupIndex : Nat)
    (tree : MdNode) (addedStyles addedJsModules : List String) :
    runBlocks opts renderer filePath totalGroups ((parentPath, code) :: rest) groupIndex tree
        addedStyles addedJsModules
      = runBlocks opts renderer filePath totalGroups rest (groupIndex + 1)
          (spliceHtmlAt tree parentPath code
            (blockRender opts renderer filePath totalGroups code groupIndex tree
              addedStyles addedJsModules).1)
          (blockRender opts renderer filePath totalGroups code groupIndex tree
            addedStyles addedJsModules).2.1
          (blockRender opts renderer filePath totalGroups code groupIndex tree
            addedStyles addedJsModules).2.2 := rfl

theorem runBlocks_eq_applyReplacements (opts : RemarkExpressiveCodeOptions)
    (renderer : RemarkExpressiveCodeRenderer) (filePath : Option String) (totalGroups : Nat) :
    ∀ (todo : List (List Nat × Nat × Code)) (groupIndex : Nat) (t : MdNode)
    (addedStyles addedJsModules : List String), replaceInv t todo →
    ∃ hs : List String, hs.length = todo.length ∧
      runBlocks opts renderer filePath totalGroups (todo.map (fun e => (e.1, e.2.2)))
          groupIndex t addedStyles addedJsModules
        = applyReplacements t (todo.zip hs) := by
  intro todo
  induction todo with
  | nil =>
      intro gi t as ajs _
      refine ⟨[], rfl, ?_⟩
      simp only [List.map_nil, List.zip_nil_right]
      rfl
  | cons e rest ih =>
      obtain ⟨q, j, c⟩ := e
      intro gi t as ajs hinv
      have hstep := replaceInv_step t q j c rest
        (blockRender opts renderer filePath totalGroups c gi t as ajs).1 hinv
      obtain ⟨hs', hlen, hrun⟩ := ih (gi + 1)
        (setChildAt t q j
          (.html (blockRender opts renderer filePath totalGroups c gi t as ajs).1))
        (blockRender opts renderer filePath totalGroups c gi t as ajs).2.1
        (blockRender opts renderer filePath totalGroups c gi t as ajs).2.2 hstep.2
      refine ⟨(blockRender opts renderer filePath totalGroups c gi t as ajs).1 :: hs',
        by simp [hlen], ?_⟩
      have hmap : ((q, j, c) :: rest).map (fun e => (e.1, e.2.2))
          = (q, c) :: rest.map (fun e => (e.1, e.2.2)) := rfl
      rw [hmap, runBlocks_cons, hstep.1]
      have hzip : ((q, j, c) :: rest).zip
            ((blockRender opts renderer filePath totalGroups c gi t as ajs).1 :: hs')
          = ((q, j, c), (blockRender opts renderer filePath totalGroups c gi t as ajs).1)
              :: rest.zip hs' := rfl
      rw [hzip]
      simp only [applyReplacements]
      exact hrun

theorem transformer_tree_id (opts : RemarkExpressiveCodeOptions)
    (engine : ExpressiveCodeEngine) (tree : MdNode) (filePath : Option String)
    (ar : Option RemarkExpressiveCodeRenderer) (n : Nat)
    (h0 : (collectCode tree []).length = 0) :
    (transformer opts engine tree filePath ar n).tree = tree := by
  unfold transformer
  rw [if_pos h0]

theorem transformer_tree_run (opts : RemarkExpressiveCodeOptions)
    (engine : ExpressiveCodeEngine) (tree : MdNode) (filePath : Option String)
    (ar : Option RemarkExpressiveCodeRenderer) (n : Nat)
    (hne : ¬ (collectCode tree []).length = 0) :
    ∃ R : RemarkExpressiveCodeRenderer,
      (transformer opts engine tree filePath ar n).tree
        = runBlocks opts R filePath (collectCode tree []).length (collectCode tree []) 0
            tree [] [] := by
  exact ⟨_, by unfold transformer; rw [if_neg hne]⟩

theorem transformer_core (tree T' : MdNode) (hs : List String)
    (hlen : hs.length = (collectCodeIdx tree []).length)
    (heq : T' = applyReplacements tree ((collectCodeIdx tree []).zip hs)) :
    (∀ (k : Nat) (e : List Nat × Nat × Code), (collectCodeIdx tree [])[k]? = some e →
      ∃ h, hs[k]? = some h ∧ entryAt T' e.1 e.2.1 (.html h)) ∧
    (∀ q m x, entryAt tree q m x → codeFree x = true → entryAt T' q m x) := by
  have hinv : replaceInv tree (((collectCodeIdx tree []).zip hs).map Prod.fst) := by
    rw [List.map_fst_zip _ _ (by omega)]
    exact replaceInv_collect tree
  constructor
  · intro k e hk
    have hklt : k < hs.length := by
      have := (List.getElem?_eq_some.mp hk).1
      omega
    refine ⟨hs.get ⟨k, hklt⟩, List.getElem?_eq_getElem hklt, ?_⟩
    rw [heq]
    refine applyReplacements_entryAt_html ((collectCodeIdx tree []).zip hs) tree hinv k e
      (hs.get ⟨k, hklt⟩) ?_
    exact List.getElem?_zip_eq_some.mpr ⟨hk, List.getElem?_eq_getElem hklt⟩
  · intro q m x hent hcf
    rw [heq]
    rw [entryAt_iff_nodeAt] at hent ⊢
    exact applyReplacements_preserves_nodeAt _ tree (q ++ [m]) x hinv hent hcf

/-- C8: for every document, the transformer's splice loop replaces each
collected code node in its parent's children at the index recorded at
collection time — which is also the index the node occupies at the moment of
its own replacement, because every earlier replacement is an in-place,
position-preserving exchange — by exactly one html node carrying the rendered
markup (one rendered string per collected node, in document order); the html
node for the k-th collected code node sits at that node's original (parent,
index) position, so sibling replacements keep their original relative order,
and every code-free subtree — in particular every non-code sibling — is left
unchanged in content and position. -/
theorem transformer_replaces_codes_in_place (opts : RemarkExpressiveCodeOptions)
    (engine : ExpressiveCodeEngine) (tree : MdNode) (filePath : Option String)
    (asyncRenderer : Option RemarkExpressiveCodeRenderer) (n : Nat) :
    ∃ hs : List String,
      hs.length = (collectCodeIdx tree []).length ∧
      (transformer opts engine tree filePath asyncRenderer n).tree
          = applyReplacements tree ((collectCodeIdx tree []).zip hs) ∧
      (∀ (k : Nat) (e : List Nat × Nat × Code), (collectCodeIdx tree [])[k]? = some e →
        ∃ h, hs[k]? = some h ∧
          entryAt (transformer opts engine tree filePath asyncRenderer n).tree
            e.1 e.2.1 (.html h)) ∧
      (∀ q m x, entryAt tree q m x → codeFree x = true →
        entryAt (transformer opts engine tree filePath asyncRenderer n).tree q m x) := by
  by_cases h0 : (collectCode tree []).length = 0
  · have hidx : collectCodeIdx tree [] = [] := by
      apply List.eq_nil_of_length_eq_zero
      have hstrip := collectCode_eq_strip tree []
      rw [hstrip, List.length_map] at h0
      exact h0
    have htree := transformer_tree_id opts engine tree filePath asyncRenderer n h0
    refine ⟨[], by simp [hidx], ?_, ?_, ?_⟩
    · rw [htree, hidx]
      rfl
    · intro k e hk
      rw [hidx] at hk
      simp at hk
    · intro q m x hent _
      rw [htree]
      exact hent
  · obtain ⟨R, htree⟩ := transformer_tree_run opts engine tree filePath asyncRenderer n h0
    obtain ⟨hs, hlen, hrun⟩ := runBlocks_eq_applyReplacements opts R filePath
      (collectCode tree []).length (collectCodeIdx tree []) 0 tree [] []
      (replaceInv_collect tree)
    rw [← collectCode_eq_strip tree []] at hrun
    have heq : (transformer opts engine tree filePath asyncRenderer n).tree
        = applyReplacements tree ((collectCodeIdx tree []).zip hs) := htree.trans hrun
    obtain ⟨c2, c3⟩ := transformer_core tree _ hs hlen heq
    exact ⟨hs, hlen, heq, c2, c3⟩
